import Mathlib

/-!
Shallow embedding of the `grammar-fuzzer` crate.

Conventions used throughout this development:

* Rust `f64` costs are embedded as `ℕ∞` (`ENat`): every cost value the code
  can produce is either `+∞` (`f64::INFINITY`, embedded as `⊤`) or a positive
  integer small enough that `f64` arithmetic on it is exact, so the embedding
  is faithful (`1.0` becomes `1`, sums and minima commute with the embedding).
* A Rust panic (indexing a missing `HashMap` key, a failed `assert!`,
  `unwrap()` of `None`, an explicit `panic!`) is embedded as `none`; fallible
  functions therefore return `Option`.
* `HashMap` is embedded as an association list (`List (String × _)`) with
  first-match lookup; where a claim genuinely depends on the map structure a
  `Nodup` hypothesis on the keys is added.
* The generic annotation parameter `T` of `Expansion<T>` is instantiated at
  `Unit`: no claim inspects the annotation and the code never does either.
* The random source (`rand::thread_rng`) is made explicit: functions that draw
  randomness take an extra `ℕ` argument (`rand`), and nondeterministic
  algorithms (tree expansion) are additionally embedded as step relations
  quantifying over the possible random choices.
-/

namespace GF

/-! ## Token scanner (`src/parser.rs`)

The `nom` parsers are embedded as functions from `List Char` to
`Option (result × List Char)` (remaining input); `none` is a parse failure.
-/

/-- Tokens of an expansion string (`parser.rs`, `enum Token`).  As in the
source, a `Nonterminal` carries the full delimited text `<name>`. -/
inductive Token where
  | Terminal : String → Token
  | Nonterminal : String → Token
deriving DecidableEq, Repr

/-- Text a token stands for in the input string. -/
def Token.text : Token → String
  | Token.Terminal s => s
  | Token.Nonterminal s => s

/-- Characters excluded from terminal tokens (Rust `"<>".contains(c)`). -/
def isMeta (c : Char) : Bool := c = '<' || c = '>'

/-- Characters allowed inside a nonterminal name
(Rust `!"<> ".contains(c)`). -/
def isName (c : Char) : Bool := !(c = '<' || c = '>' || c = ' ')

/-- Repetition-operator characters (Rust `is_a("+*?")`). -/
def isOp (c : Char) : Bool := c = '+' || c = '*' || c = '?'

/-- Embedding of `nom`'s `tag` for a single character: consume exactly `c`. -/
def expectChar (c : Char) (cs : List Char) : Option (List Char) :=
  match cs with
  | x :: rest => if x = c then some rest else none
  | [] => none

theorem expectChar_eq_some {c : Char} {cs rest : List Char} :
    expectChar c cs = some rest ↔ cs = c :: rest := by
  unfold expectChar
  cases cs with
  | nil => simp
  | cons x t =>
    by_cases hx : x = c
    · subst hx; simp
    · simp [hx, Ne.symm hx]

/-- Embedding of `nom`'s `take_while1 p`: consume a non-empty maximal run of
characters satisfying `p`, failing on an empty run. -/
def takeWhile1 (p : Char → Bool) (cs : List Char) :
    Option (List Char × List Char) :=
  let t := cs.takeWhile p
  if t.isEmpty then none else some (t, cs.dropWhile p)

theorem takeWhile1_eq_some {p : Char → Bool} {cs t rest : List Char}
    (h : takeWhile1 p cs = some (t, rest)) :
    t ++ rest = cs ∧ t ≠ [] ∧ t = cs.takeWhile p ∧ rest = cs.dropWhile p := by
  unfold takeWhile1 at h
  by_cases he : (cs.takeWhile p).isEmpty
  · simp [he] at h
  · simp only [he, if_false, Option.some.injEq, Prod.mk.injEq] at h
    obtain ⟨rfl, rfl⟩ := h
    refine ⟨List.takeWhile_append_dropWhile _ _, ?_, rfl, rfl⟩
    simpa [List.isEmpty_iff] using he

/-- `parser.rs::terminal_token`: a maximal non-empty run of non-delimiter
characters. -/
def terminal_token (cs : List Char) : Option (Token × List Char) :=
  (takeWhile1 (fun c => !isMeta c) cs).map
    fun p => (Token.Terminal (String.mk p.1), p.2)

/-- `parser.rs::nonterminal_token`: `<`, a non-empty run of name characters,
`>`; the token text is the whole delimited slice. -/
def nonterminal_token (cs : List Char) : Option (Token × List Char) :=
  (expectChar '<' cs).bind fun cs1 =>
  (takeWhile1 isName cs1).bind fun p =>
  (expectChar '>' p.2).map fun cs3 =>
  (Token.Nonterminal (String.mk ('<' :: p.1 ++ ['>'])), cs3)

/-- `parser.rs::token`: `alt((nonterminal_token, terminal_token))`. -/
def token (cs : List Char) : Option (Token × List Char) :=
  match nonterminal_token cs with
  | some r => some r
  | none => terminal_token cs

theorem terminal_token_text {cs rest : List Char} {t : Token}
    (h : terminal_token cs = some (t, rest)) :
    (Token.text t).data ++ rest = cs ∧ rest.length < cs.length := by
  unfold terminal_token at h
  rw [Option.map_eq_some'] at h
  obtain ⟨⟨tx, r⟩, htw, heq⟩ := h
  simp only [Prod.mk.injEq] at heq
  obtain ⟨ht, hr⟩ := heq
  subst ht
  subst hr
  obtain ⟨hx, hne, -, -⟩ := takeWhile1_eq_some htw
  refine ⟨by simpa [Token.text] using hx, ?_⟩
  have hlen : tx.length + r.length = cs.length := by
    rw [← hx]; simp
  have hpos : 0 < tx.length := List.length_pos.2 hne
  omega

theorem nonterminal_token_text {cs rest : List Char} {t : Token}
    (h : nonterminal_token cs = some (t, rest)) :
    (Token.text t).data ++ rest = cs ∧ rest.length < cs.length := by
  unfold nonterminal_token at h
  rw [Option.bind_eq_some] at h
  obtain ⟨cs1, hcs1, h⟩ := h
  rw [expectChar_eq_some] at hcs1
  rw [Option.bind_eq_some] at h
  obtain ⟨⟨sym, cs2⟩, htw, h⟩ := h
  obtain ⟨hsym, hne, -, -⟩ := takeWhile1_eq_some htw
  rw [Option.map_eq_some'] at h
  obtain ⟨cs3, hcs3, heq⟩ := h
  rw [expectChar_eq_some] at hcs3
  simp only [Prod.mk.injEq] at heq
  obtain ⟨ht, hr⟩ := heq
  subst ht
  subst hr
  subst hcs1
  replace hcs3 : cs2 = '>' :: cs3 := hcs3
  constructor
  · simp only [Token.text]
    rw [← hsym, hcs3]
    simp
  · have h1 : sym.length + cs2.length = cs1.length := by rw [← hsym]; simp
    have h2 : cs2.length = cs3.length + 1 := by rw [hcs3]; simp
    simp only [List.length_cons]
    omega

/-- A successful `token` parse consumed exactly the token's text. -/
theorem token_text {cs rest : List Char} {t : Token}
    (h : token cs = some (t, rest)) :
    (Token.text t).data ++ rest = cs ∧ rest.length < cs.length := by
  unfold token at h
  cases hnt : nonterminal_token cs with
  | some r =>
    rw [hnt] at h
    obtain rfl : r = (t, rest) := by simpa using h
    exact nonterminal_token_text hnt
  | none =>
    rw [hnt] at h
    exact terminal_token_text h

/-- Embedding of `many0(token)`: parse tokens while possible, returning the
unconsumed remainder.  The loop is driven by explicit fuel so that it is
structurally recursive; `token` consumes at least one character per success
(`token_text`), so fuel equal to the input length never runs out
(`tokensCore_fuel_irrelevant`). -/
def tokensCore (fuel : ℕ) (cs : List Char) : List Token × List Char :=
  match fuel with
  | 0 => ([], cs)
  | fuel + 1 =>
    match token cs with
    | none => ([], cs)
    | some (t, rest) =>
      let r := tokensCore fuel rest
      (t :: r.1, r.2)

/-- `parser.rs::tokens`: scan the whole input, panicking (here: `none`) when
the scan does not consume the entire string (`assert_eq!(input.is_empty())`).
-/
def tokens (input : String) : Option (List Token) :=
  let r := tokensCore input.data.length input.data
  if r.2.isEmpty then some r.1 else none

/-- Any fuel of at least the input length gives the same scan as unbounded
iteration would: the loop only ever stops because `token` fails. -/
theorem tokensCore_fuel_irrelevant :
    ∀ (fuel fuel2 : ℕ) (cs : List Char), cs.length ≤ fuel →
      cs.length ≤ fuel2 → tokensCore fuel cs = tokensCore fuel2 cs := by
  intro fuel
  induction fuel with
  | zero =>
    intro fuel2 cs h1 h2
    obtain rfl : cs = [] := List.length_eq_zero.1 (Nat.le_zero.1 h1)
    cases fuel2 with
    | zero => rfl
    | succ f =>
      have : token [] = none := rfl
      simp [tokensCore, this]
  | succ fuel ih =>
    intro fuel2 cs h1 h2
    cases fuel2 with
    | zero =>
      obtain rfl : cs = [] := List.length_eq_zero.1 (Nat.le_zero.1 h2)
      have : token [] = none := rfl
      simp [tokensCore, this]
    | succ f2 =>
      show tokensCore (fuel + 1) cs = tokensCore (f2 + 1) cs
      rw [tokensCore, tokensCore]
      cases h : token cs with
      | none => rfl
      | some r =>
        obtain ⟨t, rest⟩ := r
        have hlt := (token_text h).2
        dsimp only
        rw [ih f2 rest (by omega) (by omega)]

theorem tokensCore_text (fuel : ℕ) (cs : List Char) :
    (tokensCore fuel cs).1.foldr (fun t acc => (Token.text t).data ++ acc)
      (tokensCore fuel cs).2 = cs := by
  induction fuel generalizing cs with
  | zero => simp [tokensCore]
  | succ fuel ih =>
    rw [tokensCore]
    cases h : token cs with
    | none => simp
    | some r =>
      obtain ⟨t, rest⟩ := r
      simp only [List.foldr_cons]
      rw [ih rest]
      exact (token_text h).1

/-- Total text of a token list (left-to-right concatenation). -/
def concatTokens (ts : List Token) : String :=
  String.mk (ts.foldr (fun t acc => (Token.text t).data ++ acc) [])

/-- A fully successful scan accounts for the whole input string. -/
theorem tokens_concat {input : String} {ts : List Token}
    (h : tokens input = some ts) : concatTokens ts = input := by
  unfold tokens at h
  by_cases he : (tokensCore input.data.length input.data).2.isEmpty = true
  · rw [if_pos he, Option.some.injEq] at h
    subst h
    have hx := tokensCore_text input.data.length input.data
    rw [List.isEmpty_iff] at he
    rw [he] at hx
    apply String.ext
    simpa [concatTokens] using hx
  · rw [if_neg he] at h
    cases h

/-! ### EBNF sub-expression scanners (`parser.rs`) -/

/-- `parser.rs::ParenthesizedExpression`: a `(...)` group followed by a run of
repetition operators; `token` is the full matched slice. -/
structure ParenthesizedExpression where
  token : String
  op : String
  content : String
deriving DecidableEq, Repr

/-- `parser.rs::parenthesized_expression`: `(`, non-empty paren-free content,
`)`, then a non-empty run of `+*?`. -/
def parenthesized_expression (cs : List Char) :
    Option (ParenthesizedExpression × List Char) :=
  (expectChar '(' cs).bind fun cs1 =>
  (takeWhile1 (fun c => !(c = '(' || c = ')')) cs1).bind fun p =>
  (expectChar ')' p.2).bind fun cs3 =>
  (takeWhile1 isOp cs3).map fun q =>
  ({ token := String.mk ('(' :: p.1 ++ ')' :: q.1),
     op := String.mk q.1,
     content := String.mk p.1 }, q.2)

/-- `parser.rs::next_parenthesized_expression`:
`many_till(take(1), parenthesized_expression)` — try the parser at each
position from the left, returning the first match. -/
def next_parenthesized_expression_core (cs : List Char) :
    Option ParenthesizedExpression :=
  match parenthesized_expression cs with
  | some r => some r.1
  | none =>
    match cs with
    | [] => none
    | _ :: t => next_parenthesized_expression_core t

def next_parenthesized_expression (input : String) :
    Option ParenthesizedExpression :=
  next_parenthesized_expression_core input.data

/-- `parser.rs::ExtendedNonterminal`: a nonterminal followed by a run of
repetition operators; `symbol` is the delimited nonterminal alone. -/
structure ExtendedNonterminal where
  token : String
  op : String
  symbol : String
deriving DecidableEq, Repr

/-- `parser.rs::extended_nonterminal`: `<name>` then a non-empty run of
`+*?`. -/
def extended_nonterminal (cs : List Char) :
    Option (ExtendedNonterminal × List Char) :=
  (expectChar '<' cs).bind fun cs1 =>
  (takeWhile1 isName cs1).bind fun p =>
  (expectChar '>' p.2).bind fun cs3 =>
  (takeWhile1 isOp cs3).map fun q =>
  ({ token := String.mk ('<' :: p.1 ++ '>' :: q.1),
     op := String.mk q.1,
     symbol := String.mk ('<' :: p.1 ++ ['>']) }, q.2)

/-- `parser.rs::next_extended_nonterminal`:
`many_till(take(1), extended_nonterminal)`. -/
def next_extended_nonterminal_core (cs : List Char) :
    Option ExtendedNonterminal :=
  match extended_nonterminal cs with
  | some r => some r.1
  | none =>
    match cs with
    | [] => none
    | _ :: t => next_extended_nonterminal_core t

def next_extended_nonterminal (input : String) : Option ExtendedNonterminal :=
  next_extended_nonterminal_core input.data

/-! ## Grammar model (`src/grammar.rs`) -/

/-- `grammar.rs::Expansion<T>` with the annotation type instantiated at
`Unit` (no claim, and no code path, inspects the annotation value). -/
structure Expansion where
  string : String
  opts : Option Unit
deriving DecidableEq, Repr

/-- `grammar.rs::Alternatives<T>`. -/
abbrev Alternatives := List Expansion

/-- `grammar.rs::Expansions<T>`: the `HashMap` embedded as an association
list with first-match lookup. -/
abbrev Expansions := List (String × Alternatives)

/-- `grammar.rs::Grammar<T>` is a trivial wrapper (`Deref`) around
`Expansions`; the wrapper is elided in this embedding. -/
abbrev Grammar := Expansions

/-- `HashMap` lookup; `none` corresponds to a missing key (and thus to a
panic at Rust call sites that use `self[symbol]` indexing). -/
def lookup (g : Grammar) (s : String) : Option Alternatives :=
  (g.find? fun p => p.1 == s).map fun p => p.2

/-- Keys of the map, in association-list order (`self.keys()`). -/
def keysList (g : Grammar) : List String := g.map fun p => p.1

/-- Keys of the map as a set. -/
def keysFinset (g : Grammar) : Finset String := (keysList g).toFinset

/-- Sequencing of panics: `some` exactly when every entry is `some`
(a lazy Rust iterator that is fully consumed panics iff any element
panics). -/
def seqOpt {α : Type} : List (Option α) → Option (List α)
  | [] => some []
  | o :: t => o.bind fun x => (seqOpt t).map fun xs => x :: xs

@[simp]
theorem seqOpt_nil {α : Type} : seqOpt ([] : List (Option α)) = some [] := rfl

@[simp]
theorem seqOpt_cons {α : Type} (o : Option α) (t : List (Option α)) :
    seqOpt (o :: t) = o.bind fun x => (seqOpt t).map fun xs => x :: xs := rfl

theorem seqOpt_eq_some {α : Type} {l : List (Option α)} {xs : List α}
    (h : seqOpt l = some xs) : l = xs.map some := by
  induction l generalizing xs with
  | nil =>
    obtain rfl : ([] : List α) = xs := by simpa [seqOpt] using h
    rfl
  | cons o t ih =>
    rw [seqOpt_cons, Option.bind_eq_some] at h
    obtain ⟨x, rfl, h⟩ := h
    rw [Option.map_eq_some'] at h
    obtain ⟨ys, hys, rfl⟩ := h
    simp [ih hys]

theorem seqOpt_map_some {α : Type} (xs : List α) : seqOpt (xs.map some) = some xs := by
  induction xs with
  | nil => rfl
  | cons x t ih => simp [seqOpt, ih]

theorem seqOpt_isSome {α : Type} {l : List (Option α)}
    (h : ∀ o ∈ l, o.isSome) : ∃ xs, seqOpt l = some xs := by
  induction l with
  | nil => exact ⟨[], rfl⟩
  | cons o t ih =>
    obtain ⟨x, hx⟩ := Option.isSome_iff_exists.1 (h o (List.mem_cons_self o t))
    obtain ⟨xs, hxs⟩ := ih fun o ho => h o (List.mem_cons_of_mem _ ho)
    exact ⟨x :: xs, by simp [seqOpt, hx, hxs]⟩

/-- `grammar.rs::nonterminal_tokens`: the nonterminal symbols of an expansion
string, in input order; `none` when the scan panics. -/
def nonterminal_tokens (input : String) : Option (List String) :=
  (tokens input).map fun ts =>
    ts.filterMap fun t =>
      match t with
      | Token.Nonterminal s => some s
      | Token.Terminal _ => none

/-- All nonterminal symbols mentioned anywhere in the grammar (keys plus the
scannable tokens of every alternative); used only as a termination measure
and in invariants, not by the embedded code itself. -/
def symsOf (g : Grammar) : Finset String :=
  (g.flatMap fun p =>
    p.1 :: p.2.flatMap fun e => (nonterminal_tokens e.string).getD []).toFinset

/-- Token set of a single expansion, for the termination measure. -/
def ntFin (e : Expansion) : Finset String :=
  ((nonterminal_tokens e.string).getD []).toFinset

theorem ntFin_subset_symsOf {g : Grammar} {s : String} {alts : Alternatives}
    {a : Expansion} (h : lookup g s = some alts) (ha : a ∈ alts) :
    ntFin a ⊆ symsOf g := by
  intro t ht
  simp only [ntFin, List.mem_toFinset] at ht
  simp only [symsOf, List.mem_toFinset, List.mem_flatMap]
  obtain ⟨p, hp, hps⟩ : ∃ p ∈ g, p.2 = alts := by
    simp only [lookup, Option.map_eq_some'] at h
    obtain ⟨p, hp, hsnd⟩ := h
    exact ⟨p, List.mem_of_find?_eq_some hp, hsnd⟩
  exact ⟨p, hp, List.mem_cons_of_mem _ (List.mem_flatMap.2 ⟨a, hps ▸ ha, ht⟩)⟩

mutual
/-- `grammar.rs::Grammar::symbol_cost`: the minimum over the symbol's
alternatives of the expansion cost with the symbol added to `seen`; `none`
embeds the `self[symbol]` panic on an undefined symbol. -/
def symbol_cost (g : Grammar) (symbol : String) (seen : Finset String) :
    Option ℕ∞ :=
  match h : lookup g symbol with
  | none => none
  | some alts =>
    (seqOpt (alts.attach.map fun a =>
      expansion_cost g a.1 (insert symbol seen))).map
      fun cs => cs.foldl min ⊤
termination_by ((symsOf g \ insert symbol seen).card, 1)
decreasing_by
  refine Prod.Lex.right' _ ?_ ?_
  · apply Finset.card_le_card
    intro x hx
    simp only [Finset.mem_sdiff, Finset.mem_union] at hx ⊢
    rcases hx with ⟨hx1 | hx1, hx2⟩
    · exact ⟨hx1, hx2⟩
    · exact ⟨ntFin_subset_symsOf h a.2 hx1, hx2⟩
  · omega

/-- `grammar.rs::Grammar::expansion_cost`: `1` for an all-terminal expansion,
`⊤` when a nonterminal of the expansion was already seen, otherwise one plus
the sum of the nonterminals' symbol costs; `none` embeds a scan panic or a
panic in a nested `symbol_cost`. -/
def expansion_cost (g : Grammar) (e : Expansion) (seen : Finset String) :
    Option ℕ∞ :=
  match hn : nonterminal_tokens e.string with
  | none => none
  | some ns =>
    if ns.isEmpty then some 1
    else if hs : ns.any fun tk => tk ∈ seen then some ⊤
    else (seqOpt (ns.attach.map fun tk => symbol_cost g tk.1 seen)).map
      fun cs => 1 + cs.sum
termination_by (((symsOf g ∪ ntFin e) \ seen).card, 0)
decreasing_by
  apply Prod.Lex.left
  have htns : (tk : String) ∈ ns := tk.2
  have htseen : (tk : String) ∉ seen := by
    intro hc
    exact hs (List.any_eq_true.2 ⟨tk, htns, by simpa using hc⟩)
  have htB : (tk : String) ∈ (symsOf g ∪ ntFin e) \ seen := by
    simp only [Finset.mem_sdiff, Finset.mem_union]
    refine ⟨Or.inr ?_, htseen⟩
    simp only [ntFin, hn, Option.getD_some, List.mem_toFinset]
    exact htns
  have hAB : symsOf g \ insert (tk : String) seen ⊆ (symsOf g ∪ ntFin e) \ seen := by
    intro x hx
    simp only [Finset.mem_sdiff, Finset.mem_insert, not_or] at hx
    simp only [Finset.mem_sdiff, Finset.mem_union]
    exact ⟨Or.inl hx.1, hx.2.2⟩
  refine Finset.card_lt_card ((Finset.ssubset_iff_of_subset hAB).2 ⟨tk, htB, ?_⟩)
  simp
end

/-- Unfolding equation for `symbol_cost` in terms of plain `List.map`. -/
theorem symbol_cost_eq (g : Grammar) (symbol : String) (seen : Finset String) :
    symbol_cost g symbol seen =
      match lookup g symbol with
      | none => none
      | some alts =>
        (seqOpt (alts.map fun a => expansion_cost g a (insert symbol seen))).map
          fun cs => cs.foldl min ⊤ := by
  rw [symbol_cost.eq_def]
  cases h : lookup g symbol with
  | none => rfl
  | some alts =>
    simp only
    congr 1
    congr 1
    rw [← List.attach_map_coe alts (fun a => expansion_cost g a (insert symbol seen))]

/-- Unfolding equation for `expansion_cost` in terms of plain `List.map`. -/
theorem expansion_cost_eq (g : Grammar) (e : Expansion) (seen : Finset String) :
    expansion_cost g e seen =
      match nonterminal_tokens e.string with
      | none => none
      | some ns =>
        if ns.isEmpty then some 1
        else if ns.any fun tk => tk ∈ seen then some ⊤
        else (seqOpt (ns.map fun tk => symbol_cost g tk seen)).map
          fun cs => 1 + cs.sum := by
  rw [expansion_cost.eq_def]
  cases hn : nonterminal_tokens e.string with
  | none => rfl
  | some ns =>
    simp only
    by_cases he : ns.isEmpty
    · simp [he]
    · simp only [he, if_false]
      by_cases hs : ns.any fun tk => tk ∈ seen
      · simp [hs]
      · simp only [hs, dite_eq_ite, Bool.false_eq_true, if_false]
        congr 1
        rw [← List.attach_map_coe ns (fun tk => symbol_cost g tk seen)]

/-! ### Reachability and validity (`grammar.rs`) -/

/-- One worklist step's new frontier entries: the nonterminal tokens of all
alternatives of `sym`, in order; an undefined symbol contributes nothing
(`if let Some(expansions) = self.get(sym)`); `none` embeds a scan panic. -/
def successor_tokens (g : Grammar) (sym : String) : Option (List String) :=
  match lookup g sym with
  | none => some []
  | some alts =>
    (seqOpt (alts.map fun e => nonterminal_tokens e.string)).map List.flatten

theorem successor_tokens_subset {g : Grammar} {sym : String} {ts : List String}
    (h : successor_tokens g sym = some ts) : ∀ t ∈ ts, t ∈ symsOf g := by
  unfold successor_tokens at h
  cases hl : lookup g sym with
  | none => rw [hl] at h; simp only [Option.some.injEq] at h; subst h; simp
  | some alts =>
    rw [hl] at h
    rw [Option.map_eq_some'] at h
    obtain ⟨tss, hseq, rfl⟩ := h
    intro t ht
    rw [List.mem_flatten] at ht
    obtain ⟨l, hlmem, htl⟩ := ht
    have : some l ∈ alts.map fun e => nonterminal_tokens e.string := by
      rw [seqOpt_eq_some hseq]
      exact List.mem_map_of_mem _ hlmem
    rw [List.mem_map] at this
    obtain ⟨a, ha, hfa⟩ := this
    have : t ∈ ntFin a := by
      simp only [ntFin, hfa, Option.getD_some, List.mem_toFinset]
      exact htl
    exact ntFin_subset_symsOf hl ha this

/-- Worklist loop of `grammar.rs::find_reachable_nonterminals`.  The head of
the list models the top of the Rust `Vec` stack (`frontier.pop()` takes the
last element; `frontier.extend(ts)` pushes `ts` in order, so the next element
popped is the last of `ts` — hence the `ts.reverse ++` below). -/
def reachLoop (g : Grammar) (frontier : List String) (result : Finset String) :
    Option (Finset String) :=
  match frontier with
  | [] => some result
  | sym :: rest =>
    if hmem : sym ∈ result then reachLoop g rest result
    else
      match hts : successor_tokens g sym with
      | none => none
      | some ts => reachLoop g (ts.reverse ++ rest) (insert sym result)
termination_by (((symsOf g ∪ frontier.toFinset) \ result).card, frontier.length)
decreasing_by
  · refine Prod.Lex.right' _ ?_ ?_
    · apply Finset.card_le_card
      intro x hx
      simp only [Finset.mem_sdiff, Finset.mem_union, List.toFinset_cons,
        Finset.mem_insert, List.mem_toFinset] at hx ⊢
      tauto
    · simp
  · apply Prod.Lex.left
    have hsub : (symsOf g ∪ (ts.reverse ++ rest).toFinset) \ insert sym result ⊆
        (symsOf g ∪ (sym :: rest).toFinset) \ result := by
      intro x hx
      simp only [Finset.mem_sdiff, Finset.mem_union, List.toFinset_append,
        List.toFinset_reverse, Finset.mem_insert, List.toFinset_cons,
        List.mem_toFinset, not_or] at hx ⊢
      obtain ⟨hx1, hx2, hx3⟩ := hx
      refine ⟨?_, hx3⟩
      rcases hx1 with hx1 | hx1 | hx1
      · exact Or.inl hx1
      · exact Or.inl (successor_tokens_subset hts x hx1)
      · exact Or.inr (Or.inr hx1)
    have hsym : sym ∈ (symsOf g ∪ (sym :: rest).toFinset) \ result := by
      simp [hmem]
    refine Finset.card_lt_card ((Finset.ssubset_iff_of_subset hsub).2 ⟨sym, hsym, ?_⟩)
    simp

/-- `grammar.rs::Grammar::find_reachable_nonterminals`. -/
def find_reachable_nonterminals (g : Grammar) (symbol : String) :
    Option (Finset String) :=
  reachLoop g [symbol] ∅

/-- `grammar.rs::Grammar::find_unavoidable_cycle`: defined symbols whose cost
from the empty seen-set is infinite; `none` embeds a panic inside
`symbol_cost` (undefined lookup) or a scan panic. -/
def find_unavoidable_cycle (g : Grammar) : Option (List String) :=
  (seqOpt ((keysList g).map fun s => symbol_cost g s ∅)).map fun costs =>
    (((keysList g).zip costs).filter fun p => p.2 = ⊤).map fun p => p.1

/-- `grammar.rs::Grammar::is_valid_grammar`.  The unreachable-symbol set is
computed only for a diagnostic print and does not influence the result. -/
def is_valid_grammar (g : Grammar) (start_symbol : Option String) :
    Option Bool :=
  let start := start_symbol.getD "<start>"
  match find_reachable_nonterminals g start with
  | none => none
  | some reachable =>
    match find_unavoidable_cycle g with
    | none => none
    | some cycle =>
      some (decide (reachable \ keysFinset g = ∅) && decide (cycle = []))

/-! ## Derivation tree (`src/derivation_tree.rs`)

`Children { roots: Vec<RefCell<Node>> }` is embedded as a plain `List Node`:
the `RefCell` only provides the in-place mutation that the step relation
below models explicitly.
-/

inductive Node where
  /-- `T` is a terminal node. -/
  | T : String → Node
  /-- `N` is a nonterminal node that has not been expanded yet. -/
  | N : String → Node
  /-- `EN` is an expanded nonterminal node with its children. -/
  | EN : String → List Node → Node

mutual
/-- `derivation_tree.rs::Node::any_possible_expansions`: is there a `Node::N`
in the subtree? -/
def any_possible_expansions : Node → Bool
  | Node.T _ => false
  | Node.N _ => true
  | Node.EN _ chl => anyChildren chl

/-- `chl.iter().any(...)` for `any_possible_expansions`. -/
def anyChildren : List Node → Bool
  | [] => false
  | c :: t => any_possible_expansions c || anyChildren t
end

mutual
/-- `derivation_tree.rs::Node::num_possible_expansions`: the number of
`Node::N` in the subtree. -/
def num_possible_expansions : Node → ℕ
  | Node.T _ => 0
  | Node.N _ => 1
  | Node.EN _ chl => numChildren chl

/-- `chl.iter().map(...).sum()` for `num_possible_expansions`. -/
def numChildren : List Node → ℕ
  | [] => 0
  | c :: t => num_possible_expansions c + numChildren t
end

theorem anyChildren_eq (chl : List Node) :
    anyChildren chl = chl.any any_possible_expansions := by
  induction chl with
  | nil => rfl
  | cons c t ih => simp [anyChildren, ih]

theorem numChildren_eq (chl : List Node) :
    numChildren chl = (chl.map num_possible_expansions).sum := by
  induction chl with
  | nil => rfl
  | cons c t ih => simp [numChildren, ih]

/-- `derivation_tree.rs::Children::from(&str)`: scan the expansion into child
nodes, an empty token list becoming the single empty-terminal child
(`Children::epsilon`); `none` embeds the scan panic. -/
def children_from (expansion : String) : Option (List Node) :=
  (tokens expansion).map fun ts =>
    if ts.isEmpty then [Node.T ""]
    else ts.map fun t =>
      match t with
      | Token.Nonterminal s => Node.N s
      | Token.Terminal s => Node.T s

/-! ## Strategies (`src/strategy.rs`, `src/shared.rs`) -/

/-- `shared.rs::random_element` with the random draw made explicit: collect
the indices of elements satisfying `p`, pick the one at position
`rand % count` (an empty candidate list gives `none`, as `choose` does). -/
def random_element {α : Type} (vs : List α) (p : α → Bool) (rand : ℕ) :
    Option α :=
  let idxs := (vs.enum.filter fun q => p q.2).map fun q => q.1
  (idxs[rand % idxs.length]?).bind fun i => vs[i]?

/-- `shared.rs::min_idx`: a uniformly random index among those of minimal
value; the `assert!` on emptiness and the `unwrap` are embedded as `none`. -/
def min_idx (vs : List ℕ∞) (rand : ℕ) : Option ℕ :=
  if vs.isEmpty then none
  else
    let m := vs.foldl min ⊤
    let min_idxs := (vs.enum.filter fun p => p.2 = m).map fun p => p.1
    random_element min_idxs (fun _ => true) rand

/-- `shared.rs::max_idx`: a uniformly random index among those of maximal
value.  The fold starts from `f64::NEG_INFINITY`, embedded as `0`, the bottom
of `ℕ∞`. -/
def max_idx (vs : List ℕ∞) (rand : ℕ) : Option ℕ :=
  if vs.isEmpty then none
  else
    let m := vs.foldl max 0
    let max_idxs := (vs.enum.filter fun p => p.2 = m).map fun p => p.1
    random_element max_idxs (fun _ => true) rand

/-- `strategy.rs::costs`: the expansion costs of a symbol's alternatives with
`seen = {sym}`. -/
def costs (grammar : Grammar) (sym : String) (expansions : Alternatives) :
    Option (List ℕ∞) :=
  seqOpt (expansions.map fun expansion =>
    expansion_cost grammar expansion {sym})

/-- `strategy.rs::RandomStrategy`. -/
structure RandomStrategy where
  nonterminals_threshold : ℕ
  max_steps : ℕ

def RandomStrategy.cont (self : RandomStrategy) (dt_root : Node)
    (num_steps : ℕ) : Bool :=
  decide (num_possible_expansions dt_root < self.nonterminals_threshold) &&
    decide (num_steps < self.max_steps)

/-- `RandomStrategy::choose`: a uniformly random alternative
(`gen_range(0, expansions.len())`, which panics on an empty range). -/
def RandomStrategy.choose (_self : RandomStrategy) (grammar : Grammar)
    (node : Node) (rand : ℕ) : Option String :=
  match node with
  | Node.N symbol =>
    (lookup grammar symbol).bind fun expansions =>
      if expansions.isEmpty then none
      else (expansions[rand % expansions.length]?).map fun e => e.string
  | _ => none

/-- `strategy.rs::GrowthStrategy`. -/
structure GrowthStrategy where
  nonterminals_threshold : ℕ
  max_steps : ℕ

def GrowthStrategy.cont (self : GrowthStrategy) (dt_root : Node)
    (num_steps : ℕ) : Bool :=
  decide (num_possible_expansions dt_root < self.nonterminals_threshold) &&
    decide (num_steps < self.max_steps)

/-- `GrowthStrategy::choose`: an alternative of maximal cost. -/
def GrowthStrategy.choose (_self : GrowthStrategy) (grammar : Grammar)
    (node : Node) (rand : ℕ) : Option String :=
  match node with
  | Node.N symbol =>
    (lookup grammar symbol).bind fun expansions =>
      (costs grammar symbol expansions).bind fun cs =>
      (max_idx cs rand).bind fun i =>
      (expansions[i]?).map fun e => e.string
  | _ => none

/-- `strategy.rs::CloseStrategy`. -/
structure CloseStrategy where

def CloseStrategy.cont (_self : CloseStrategy) (_dt_root : Node)
    (_num_steps : ℕ) : Bool :=
  true

/-- `CloseStrategy::choose`: an alternative of minimal cost. -/
def CloseStrategy.choose (_self : CloseStrategy) (grammar : Grammar)
    (node : Node) (rand : ℕ) : Option String :=
  match node with
  | Node.N symbol =>
    (lookup grammar symbol).bind fun expansions =>
      (costs grammar symbol expansions).bind fun cs =>
      (min_idx cs rand).bind fun i =>
      (expansions[i]?).map fun e => e.string
  | _ => none

/-! ## Expansion engine (`src/fuzzer.rs`)

`expand_tree_once` mutates the tree in place and draws randomness twice (the
qualifying child in `random_element`, and inside `choose`); it is embedded as
a step relation parameterised by the chooser relation `C sym e`, read as "the
strategy's `choose` can return `Some(e)` for `Unexpanded(sym)`".
-/

inductive ExpandOnce (C : String → String → Prop) : Node → Node → Prop where
  /-- `Node::T(_) => ()` — a terminal root is a no-op. -/
  | terminal (s : String) : ExpandOnce C (Node.T s) (Node.T s)
  /-- `Node::N(sym)`: ask the strategy for an expansion, scan it into
  children, and replace the node by `Expanded` (`std::mem::replace`). -/
  | unexpanded (sym e : String) (ch : List Node) :
      C sym e → children_from e = some ch →
      ExpandOnce C (Node.N sym) (Node.EN sym ch)
  /-- `Node::EN`: no child qualifies (`random_element` returned `None`) — a
  no-op. -/
  | noop (sym : String) (ch : List Node) :
      (∀ c ∈ ch, any_possible_expansions c = false) →
      ExpandOnce C (Node.EN sym ch) (Node.EN sym ch)
  /-- `Node::EN`: recurse into one random child with possible expansions,
  leaving every sibling untouched. -/
  | child (sym : String) (ch : List Node) (j : ℕ) (c' : Node)
      (hj : j < ch.length) :
      any_possible_expansions ch[j] = true →
      ExpandOnce C ch[j] c' →
      ExpandOnce C (Node.EN sym ch) (Node.EN sym (ch.set j c'))

/-- The chooser relation of `CloseStrategy` (over all random draws). -/
def close_chooses (g : Grammar) (sym e : String) : Prop :=
  ∃ rand, CloseStrategy.choose {} g (Node.N sym) rand = some e

/-- One `expand_tree_once` step under `CloseStrategy`. -/
def CloseStep (g : Grammar) : Node → Node → Prop :=
  ExpandOnce (close_chooses g)

/-! ## Decimal numerals

Facts about `Nat.repr` (the embedding of Rust's `format!("{}", count)`)
needed by the fresh-symbol allocator: the decimal representation is injective
and consists of digit characters only.
-/

/-- Numeric value of a digit character. -/
def charVal (c : Char) : ℕ := c.toNat - '0'.toNat

theorem charVal_digitChar {d : ℕ} (hd : d < 10) :
    charVal (Nat.digitChar d) = d := by
  interval_cases d <;> decide

theorem digitChar_isDigit {d : ℕ} (hd : d < 10) :
    (Nat.digitChar d).isDigit = true := by
  interval_cases d <;> decide

/-- Value of a digit string, most significant first. -/
def digitsVal (l : List Char) : ℕ :=
  l.foldl (fun a c => a * 10 + charVal c) 0

theorem foldl_digitsVal (l : List Char) (a : ℕ) :
    l.foldl (fun a c => a * 10 + charVal c) a =
      a * 10 ^ l.length + digitsVal l := by
  induction l generalizing a with
  | nil => simp [digitsVal]
  | cons c t ih =>
    simp only [List.foldl_cons, List.length_cons]
    rw [ih (a * 10 + charVal c)]
    have h2 : digitsVal (c :: t) = charVal c * 10 ^ t.length + digitsVal t := by
      simp only [digitsVal, List.foldl_cons]
      rw [ih (0 * 10 + charVal c)]
      simp only [digitsVal]
      ring
    rw [h2, pow_succ]
    simp only [digitsVal]
    ring

theorem digitsVal_cons (c : Char) (ds : List Char) :
    digitsVal (c :: ds) = charVal c * 10 ^ ds.length + digitsVal ds := by
  simp only [digitsVal, List.foldl_cons]
  rw [foldl_digitsVal]
  simp only [digitsVal]
  ring

theorem toDigitsCore_val :
    ∀ (fuel n : ℕ) (ds : List Char), n < fuel →
      digitsVal (Nat.toDigitsCore 10 fuel n ds) =
        n * 10 ^ ds.length + digitsVal ds := by
  intro fuel
  induction fuel with
  | zero => intro n ds h; omega
  | succ fuel ih =>
    intro n ds h
    rw [Nat.toDigitsCore]
    by_cases h0 : n / 10 = 0
    · simp only [h0, if_true]
      rw [digitsVal_cons]
      have hlt : n < 10 := by
        rcases Nat.lt_or_ge n 10 with hc | hc
        · exact hc
        · exact absurd h0 (by
            have : 0 < n / 10 := Nat.div_pos hc (by norm_num)
            omega)
      rw [charVal_digitChar (Nat.mod_lt n (by norm_num)), Nat.mod_eq_of_lt hlt]
    · simp only [h0, if_false]
      have hn : 0 < n := by
        by_contra hz
        exact h0 (by omega)
      have hdiv : n / 10 < fuel := by
        have := Nat.div_lt_self hn (by norm_num : (1 : ℕ) < 10)
        omega
      rw [ih (n / 10) (Nat.digitChar (n % 10) :: ds) hdiv]
      rw [digitsVal_cons, charVal_digitChar (Nat.mod_lt n (by norm_num))]
      calc (n / 10) * 10 ^ (Nat.digitChar (n % 10) :: ds).length +
            (n % 10 * 10 ^ ds.length + digitsVal ds)
          = (10 * (n / 10) + n % 10) * 10 ^ ds.length + digitsVal ds := by
            simp only [List.length_cons, pow_succ]
            ring
        _ = n * 10 ^ ds.length + digitsVal ds := by rw [Nat.div_add_mod]

theorem digitsVal_repr (n : ℕ) : digitsVal (Nat.repr n).data = n := by
  show digitsVal (List.asString (Nat.toDigitsCore 10 (n + 1) n [])).data = n
  rw [show (List.asString (Nat.toDigitsCore 10 (n + 1) n [])).data =
      Nat.toDigitsCore 10 (n + 1) n [] from rfl]
  rw [toDigitsCore_val (n + 1) n [] (Nat.lt_succ_self n)]
  simp [digitsVal]

theorem repr_injective : Function.Injective Nat.repr := by
  intro a b h
  have ha := digitsVal_repr a
  rw [h, digitsVal_repr b] at ha
  exact ha.symm

theorem toDigitsCore_chars :
    ∀ (fuel n : ℕ) (ds : List Char) (c : Char),
      c ∈ Nat.toDigitsCore 10 fuel n ds → c ∈ ds ∨ c.isDigit := by
  intro fuel
  induction fuel with
  | zero => intro n ds c h; exact Or.inl h
  | succ fuel ih =>
    intro n ds c h
    rw [Nat.toDigitsCore] at h
    by_cases h0 : n / 10 = 0
    · simp only [h0, if_true, List.mem_cons] at h
      rcases h with rfl | h
      · exact Or.inr (digitChar_isDigit (Nat.mod_lt n (by norm_num)))
      · exact Or.inl h
    · simp only [h0, if_false] at h
      rcases ih (n / 10) _ c h with hmem | hdig
      · rcases List.mem_cons.1 hmem with rfl | hmem
        · exact Or.inr (digitChar_isDigit (Nat.mod_lt n (by norm_num)))
        · exact Or.inl hmem
      · exact Or.inr hdig

theorem repr_chars {n : ℕ} {c : Char} (h : c ∈ (Nat.repr n).data) :
    c.isDigit = true := by
  have : c ∈ Nat.toDigitsCore 10 (n + 1) n [] := h
  rcases toDigitsCore_chars (n + 1) n [] c this with hmem | hdig
  · cases hmem
  · exact hdig

/-! ## Fresh symbols (`src/extensions.rs`, `struct Symbols`) -/

/-- The candidate name `format!("<{}-{}>", name, count)`. -/
def freshName (name : String) (k : ℕ) : String :=
  String.mk ('<' :: name.data ++ '-' :: (Nat.repr k).data ++ ['>'])

theorem freshName_injective (name : String) :
    Function.Injective (freshName name) := by
  intro k1 k2 h
  apply repr_injective
  apply String.ext
  have hd := congrArg String.data h
  dsimp only [freshName] at hd
  simp only [List.cons_append, List.append_assoc] at hd
  injection hd with h0 h1
  have h2 := List.append_cancel_left h1
  injection h2 with h3 h4
  exact (List.append_inj' h4 rfl).1

theorem fresh_exists (S : Finset String) (name : String) :
    ∃ k, freshName name (k + 1) ∉ S := by
  by_contra hc
  push_neg at hc
  have hinj : Function.Injective fun k : ℕ => freshName name (k + 1) := by
    intro a b h
    have := freshName_injective name h
    omega
  have hsub : (Finset.range (S.card + 1)).image
      (fun k => freshName name (k + 1)) ⊆ S := by
    intro x hx
    rw [Finset.mem_image] at hx
    obtain ⟨k, -, rfl⟩ := hx
    exact hc k
  have hcard := Finset.card_le_card hsub
  rw [Finset.card_image_of_injective _ hinj, Finset.card_range] at hcard
  omega

/-- `extensions.rs::Symbols`: the set of nonterminal names already in use. -/
structure Symbols where
  existing_nonterminals : Finset String

/-- `extensions.rs::Symbols::new`: the base name itself if unused, otherwise
the first `<base-k>` (k counting from 1) not in use; the chosen name is
reserved immediately. -/
def Symbols.new (self : Symbols) (nonterminal_symbol : Option String) :
    String × Symbols :=
  let tentative_symbol := nonterminal_symbol.getD "<symbol>"
  let symbol_name := (tentative_symbol.drop 1).dropRight 1
  let chosen :=
    if tentative_symbol ∈ self.existing_nonterminals then
      freshName symbol_name
        (Nat.find (fresh_exists self.existing_nonterminals symbol_name) + 1)
    else tentative_symbol
  (chosen, ⟨insert chosen self.existing_nonterminals⟩)

/-- `impl From<&Grammar<T>> for Symbols`: seed with the defined keys. -/
def Symbols.ofGrammar (input : Grammar) : Symbols :=
  ⟨(keysList input).toFinset⟩

theorem Symbols.new_fresh (self : Symbols) (arg : Option String) :
    (self.new arg).1 ∉ self.existing_nonterminals := by
  unfold Symbols.new
  dsimp only
  by_cases h : (arg.getD "<symbol>") ∈ self.existing_nonterminals
  · rw [if_pos h]
    exact Nat.find_spec (fresh_exists self.existing_nonterminals _)
  · rw [if_neg h]
    exact h

theorem Symbols.new_reserves (self : Symbols) (arg : Option String) :
    ((self.new arg).2).existing_nonterminals =
      insert (self.new arg).1 self.existing_nonterminals :=
  rfl

theorem isDigit_plain {c : Char} (h : c.isDigit = true) :
    c ≠ '(' ∧ isOp c = false := by
  have hrange : 48 ≤ c.toNat ∧ c.toNat ≤ 57 := by
    simp only [Char.isDigit, decide_eq_true_eq, Bool.and_eq_true, Char.le_def] at h
    exact ⟨h.1, h.2⟩
  constructor
  · intro hc
    subst hc
    simp at hrange
  · by_contra hop
    rw [Bool.not_eq_false] at hop
    simp only [isOp, Bool.or_eq_true, decide_eq_true_eq] at hop
    rcases hop with (rfl | rfl) | rfl <;> simp at hrange

/-- The name minted by `Symbols::new(None)` contains no parenthesis and no
repetition-operator character (it is `<symbol>` or `<symbol-digits>`). -/
theorem Symbols.new_none_plain (self : Symbols) :
    ∀ c ∈ ((self.new none).1).data, c ≠ '(' ∧ isOp c = false := by
  unfold Symbols.new
  dsimp only
  intro c hc
  simp only [Option.getD_none] at hc
  by_cases h : ("<symbol>" : String) ∈ self.existing_nonterminals
  · rw [if_pos h] at hc
    dsimp only [freshName] at hc
    simp only [List.mem_cons, List.mem_append, List.mem_singleton] at hc
    have hall : ∀ x ∈ ((("<symbol>" : String).drop 1).dropRight 1).data,
        x ≠ '(' ∧ isOp x = false := by decide
    rcases hc with ((rfl | hc) | (rfl | hc)) | (rfl | hc)
    · exact ⟨by decide, by decide⟩
    · exact hall c hc
    · exact ⟨by decide, by decide⟩
    · exact isDigit_plain (repr_chars hc)
    · exact ⟨by decide, by decide⟩
    · cases hc
  · rw [if_neg h] at hc
    have hall : ∀ x ∈ ("<symbol>" : String).data, x ≠ '(' ∧ isOp x = false := by
      decide
    exact hall c hc

/-! ## String rewriting (`String::replacen(pat, new, 1)`) -/

/-- Replace the first occurrence of `pat` in `s` by `new` (the embedding of
Rust `replacen(..., 1)`; when `pat` does not occur `s` is returned
unchanged). -/
def replaceFirst (s pat new : List Char) : List Char :=
  if pat.isPrefixOf s then new ++ s.drop pat.length
  else
    match s with
    | [] => []
    | c :: t => c :: replaceFirst t pat new

/-- String-level `replacen(pat, new, 1)`. -/
def string_replacen (s pat new : String) : String :=
  String.mk (replaceFirst s.data pat.data new.data)

theorem replaceFirst_decomp {s pat : List Char} (new pre rest : List Char)
    (hocc : s = pre ++ pat ++ rest) :
    ∃ pre2 rest2, s = pre2 ++ pat ++ rest2 ∧
      replaceFirst s pat new = pre2 ++ new ++ rest2 := by
  induction s generalizing pre with
  | nil =>
    refine ⟨pre, rest, hocc, ?_⟩
    have hpat : pat = [] := by
      rcases List.append_eq_nil.1 (List.append_eq_nil.1 hocc.symm).1 with ⟨-, h2⟩
      exact h2
    have hpre : pre = [] := (List.append_eq_nil.1 (List.append_eq_nil.1 hocc.symm).1).1
    have hrest : rest = [] := (List.append_eq_nil.1 hocc.symm).2
    subst hpat
    subst hpre
    subst hrest
    simp [replaceFirst, List.isPrefixOf_iff_prefix]
  | cons c t ih =>
    by_cases hp : pat.isPrefixOf (c :: t)
    · rw [List.isPrefixOf_iff_prefix] at hp
      obtain ⟨rest2, hrest⟩ := hp
      refine ⟨[], rest2, by simp [← hrest], ?_⟩
      rw [replaceFirst, if_pos (List.isPrefixOf_iff_prefix.2 ⟨rest2, hrest⟩)]
      rw [← hrest, List.drop_left]
      simp
    · cases pre with
      | nil =>
        exfalso
        exact hp (List.isPrefixOf_iff_prefix.2 ⟨rest, by simpa using hocc.symm⟩)
      | cons p ps =>
        simp only [List.cons_append, List.cons.injEq] at hocc
        obtain ⟨rfl, ht⟩ := hocc
        obtain ⟨pre2, rest2, hs, hrep⟩ := ih ps ht
        refine ⟨c :: pre2, rest2, by simp [hs], ?_⟩
        rw [replaceFirst, if_neg hp]
        simp [hrep]

theorem countP_replaceFirst {s pat : List Char} (new pre rest : List Char)
    (p : Char → Bool) (hocc : s = pre ++ pat ++ rest) :
    (replaceFirst s pat new).countP p + pat.countP p =
      s.countP p + new.countP p := by
  obtain ⟨pre2, rest2, hs, hrep⟩ := replaceFirst_decomp new pre rest hocc
  rw [hrep, hs]
  simp only [List.countP_append]
  omega

/-! ### Consumption facts for the EBNF sub-expression parsers -/

theorem parenthesized_expression_parts {cs rest : List Char}
    {pe : ParenthesizedExpression}
    (h : parenthesized_expression cs = some (pe, rest)) :
    pe.token.data = '(' :: pe.content.data ++ ')' :: pe.op.data ∧
    pe.token.data ++ rest = cs ∧
    pe.op.data ≠ [] ∧ (∀ c ∈ pe.op.data, isOp c = true) ∧
    (∀ c ∈ pe.content.data, c ≠ '(' ∧ c ≠ ')') := by
  unfold parenthesized_expression at h
  rw [Option.bind_eq_some] at h
  obtain ⟨cs1, hcs1, h⟩ := h
  rw [expectChar_eq_some] at hcs1
  rw [Option.bind_eq_some] at h
  obtain ⟨⟨content, cs2⟩, htw1, h⟩ := h
  obtain ⟨hcontent, hcne, hctw, -⟩ := takeWhile1_eq_some htw1
  rw [Option.bind_eq_some] at h
  obtain ⟨cs3, hcs3, h⟩ := h
  replace hcs3 : cs2 = ')' :: cs3 := expectChar_eq_some.1 hcs3
  rw [Option.map_eq_some'] at h
  obtain ⟨⟨ops, cs4⟩, htw2, heq⟩ := h
  obtain ⟨hops, hopne, hoptw, -⟩ := takeWhile1_eq_some htw2
  simp only [Prod.mk.injEq] at heq
  obtain ⟨hpe, hrest⟩ := heq
  subst hpe
  subst hrest
  subst hcs1
  refine ⟨rfl, ?_, hopne, ?_, ?_⟩
  · show ('(' :: (content ++ ')' :: ops)) ++ cs4 = '(' :: cs1
    rw [← hcontent, hcs3]
    simp [← hops]
  · intro c hc
    rw [hoptw] at hc
    exact List.mem_takeWhile_imp hc
  · intro c hc
    rw [hctw] at hc
    have := List.mem_takeWhile_imp hc
    constructor <;> · intro hcc; subst hcc; simp at this

theorem extended_nonterminal_parts {cs rest : List Char}
    {ext : ExtendedNonterminal}
    (h : extended_nonterminal cs = some (ext, rest)) :
    ∃ sym, ext.token.data = '<' :: sym ++ '>' :: ext.op.data ∧
      ext.symbol.data = '<' :: sym ++ ['>'] ∧
      ext.token.data ++ rest = cs ∧
      ext.op.data ≠ [] ∧ (∀ c ∈ ext.op.data, isOp c = true) := by
  unfold extended_nonterminal at h
  rw [Option.bind_eq_some] at h
  obtain ⟨cs1, hcs1, h⟩ := h
  rw [expectChar_eq_some] at hcs1
  rw [Option.bind_eq_some] at h
  obtain ⟨⟨sym, cs2⟩, htw1, h⟩ := h
  obtain ⟨hsym, hsne, -, -⟩ := takeWhile1_eq_some htw1
  rw [Option.bind_eq_some] at h
  obtain ⟨cs3, hcs3, h⟩ := h
  replace hcs3 : cs2 = '>' :: cs3 := expectChar_eq_some.1 hcs3
  rw [Option.map_eq_some'] at h
  obtain ⟨⟨ops, cs4⟩, htw2, heq⟩ := h
  obtain ⟨hops, hopne, hoptw, -⟩ := takeWhile1_eq_some htw2
  simp only [Prod.mk.injEq] at heq
  obtain ⟨hext, hrest⟩ := heq
  subst hext
  subst hrest
  subst hcs1
  refine ⟨sym, rfl, rfl, ?_, hopne, ?_⟩
  · show ('<' :: (sym ++ '>' :: ops)) ++ cs4 = '<' :: cs1
    rw [← hsym, hcs3]
    simp [← hops]
  · intro c hc
    rw [hoptw] at hc
    exact List.mem_takeWhile_imp hc

theorem next_parenthesized_expression_core_occurs {cs : List Char}
    {pe : ParenthesizedExpression}
    (h : next_parenthesized_expression_core cs = some pe) :
    ∃ pre rest, cs = pre ++ pe.token.data ++ rest ∧
      pe.token.data = '(' :: pe.content.data ++ ')' :: pe.op.data ∧
      pe.op.data ≠ [] ∧ (∀ c ∈ pe.op.data, isOp c = true) ∧
      (∀ c ∈ pe.content.data, c ≠ '(' ∧ c ≠ ')') := by
  induction cs with
  | nil =>
    rw [next_parenthesized_expression_core,
      show parenthesized_expression [] = none from rfl] at h
    simp at h
  | cons c t ih =>
    rw [next_parenthesized_expression_core] at h
    cases hp : parenthesized_expression (c :: t) with
    | some r =>
      rw [hp] at h
      obtain rfl : r.1 = pe := by simpa using h
      obtain ⟨h1, h2, h3, h4, h5⟩ := parenthesized_expression_parts
        (show parenthesized_expression (c :: t) = some (r.1, r.2) from hp)
      exact ⟨[], r.2, by simpa using h2.symm, h1, h3, h4, h5⟩
    | none =>
      rw [hp] at h
      obtain ⟨pre, rest, hocc, hrest⟩ := ih h
      exact ⟨c :: pre, rest, by simp [hocc], hrest⟩

theorem next_extended_nonterminal_core_occurs {cs : List Char}
    {ext : ExtendedNonterminal}
    (h : next_extended_nonterminal_core cs = some ext) :
    ∃ pre rest sym, cs = pre ++ ext.token.data ++ rest ∧
      ext.token.data = '<' :: sym ++ '>' :: ext.op.data ∧
      ext.symbol.data = '<' :: sym ++ ['>'] ∧
      ext.op.data ≠ [] ∧ (∀ c ∈ ext.op.data, isOp c = true) := by
  induction cs with
  | nil =>
    rw [next_extended_nonterminal_core,
      show extended_nonterminal [] = none from rfl] at h
    simp at h
  | cons c t ih =>
    rw [next_extended_nonterminal_core] at h
    cases hp : extended_nonterminal (c :: t) with
    | some r =>
      rw [hp] at h
      obtain rfl : r.1 = ext := by simpa using h
      obtain ⟨sym, h1, h2, h3, h4, h5⟩ := extended_nonterminal_parts
        (show extended_nonterminal (c :: t) = some (r.1, r.2) from hp)
      exact ⟨[], r.2, sym, by simpa using h3.symm, h1, h2, h4, h5⟩
    | none =>
      rw [hp] at h
      obtain ⟨pre, rest, sym, hocc, hrest⟩ := ih h
      exact ⟨c :: pre, rest, sym, by simp [hocc], hrest⟩

/-! ## EBNF normalisation (`src/extensions.rs`) -/

theorem isOp_ne_paren {c : Char} (h : isOp c = true) : c ≠ '(' := by
  intro hc
  subst hc
  simp [isOp] at h

/-- `HashMap::insert`: overwrite the entry if present, append otherwise. -/
def insertExp (es : Expansions) (k : String) (v : Alternatives) : Expansions :=
  if es.any fun p => p.1 == k then
    es.map fun p => if p.1 == k then (p.1, v) else p
  else es ++ [(k, v)]

/-- `HashMap::extend`: insert every entry of `new`. -/
def extendExp (es : Expansions) (new : Expansions) : Expansions :=
  new.foldl (fun acc p => insertExp acc p.1 p.2) es

/-- `entry(k).or_insert(Vec::new()).push(e)`. -/
def pushEntry (es : Expansions) (k : String) (e : Expansion) : Expansions :=
  if es.any fun p => p.1 == k then
    es.map fun p => if p.1 == k then (p.1, p.2 ++ [e]) else p
  else es ++ [(k, [e])]

/-- `extensions.rs::operator_expansions`: the alternative table for a
repetition operator; `none` embeds the `panic!` on an unsupported operator. -/
def operator_expansions (extension : ExtendedNonterminal) (new_symbol : String) :
    Option Alternatives :=
  let original_symbol := extension.symbol
  if extension.op = "?" then
    some [Expansion.mk "" none, Expansion.mk original_symbol none]
  else if extension.op = "*" then
    some [Expansion.mk "" none,
      Expansion.mk (original_symbol ++ new_symbol) none]
  else if extension.op = "+" then
    some [Expansion.mk original_symbol none,
      Expansion.mk (original_symbol ++ new_symbol) none]
  else none

/-- Number of `(` characters, the termination measure of the parenthesis
pass. -/
def parenCount (cs : List Char) : ℕ := cs.countP fun c => c = '('

/-- Number of repetition-operator characters, the termination measure of the
operator pass. -/
def opCount (cs : List Char) : ℕ := cs.countP isOp

theorem paren_step_lt {s : String} {pe : ParenthesizedExpression}
    (hx : next_parenthesized_expression s = some pe) (rep : String)
    (hrep : ∀ c ∈ rep.data, c ≠ '(') :
    parenCount (string_replacen s pe.token rep).data < parenCount s.data := by
  obtain ⟨pre, rest, hocc, htok, hopne, hops, hcontent⟩ :=
    next_parenthesized_expression_core_occurs hx
  have hkey := countP_replaceFirst rep.data pre rest
    (fun c => decide (c = '(')) hocc
  have hpat : (pe.token.data.countP fun c => decide (c = '(')) = 1 := by
    rw [htok]
    simp only [List.countP_cons, List.countP_append]
    have h1 : (pe.content.data.countP fun c => decide (c = '(')) = 0 :=
      List.countP_eq_zero.2 fun c hc => by
        simpa using (hcontent c hc).1
    have h2 : (pe.op.data.countP fun c => decide (c = '(')) = 0 :=
      List.countP_eq_zero.2 fun c hc => by
        simpa using isOp_ne_paren (hops c hc)
    rw [h1, h2]
    decide
  have hrep0 : (rep.data.countP fun c => decide (c = '(')) = 0 :=
    List.countP_eq_zero.2 fun c hc => by simpa using hrep c hc
  unfold parenCount string_replacen
  rw [show (String.mk (replaceFirst s.data pe.token.data rep.data)).data =
    replaceFirst s.data pe.token.data rep.data from rfl]
  omega

theorem op_step_lt {s : String} {ext : ExtendedNonterminal}
    (hx : next_extended_nonterminal s = some ext) (rep : String)
    (hrep : ∀ c ∈ rep.data, isOp c = false) :
    opCount (string_replacen s ext.token rep).data < opCount s.data := by
  obtain ⟨pre, rest, sym, hocc, htok, hsymdat, hopne, hops⟩ :=
    next_extended_nonterminal_core_occurs hx
  have hkey := countP_replaceFirst rep.data pre rest isOp hocc
  have hpat : 1 ≤ ext.token.data.countP isOp := by
    rw [htok]
    simp only [List.countP_cons, List.countP_append]
    have h2 : ext.op.data.countP isOp = ext.op.data.length :=
      List.countP_eq_length.2 hops
    have h3 : 1 ≤ ext.op.data.length :=
      List.length_pos.2 hopne
    omega
  have hrep0 : rep.data.countP isOp = 0 :=
    List.countP_eq_zero.2 fun a ha => by simp [hrep a ha]
  unfold opCount string_replacen
  rw [show (String.mk (replaceFirst s.data ext.token.data rep.data)).data =
    replaceFirst s.data ext.token.data rep.data from rfl]
  omega

/-- Loop body of `extensions.rs::convert_ebnf_parentheses`: repeatedly
extract the next parenthesised group into a fresh single-alternative
production. -/
def convert_parentheses_loop (expansion_symbol : String)
    (new_expansions : Expansions) (symbols : Symbols) :
    (String × Expansions) × Symbols :=
  match hx : next_parenthesized_expression expansion_symbol with
  | none => ((expansion_symbol, new_expansions), symbols)
  | some expression =>
    let r := symbols.new none
    convert_parentheses_loop
      (string_replacen expansion_symbol expression.token (r.1 ++ expression.op))
      (insertExp new_expansions r.1 [Expansion.mk expression.content none])
      r.2
termination_by parenCount expansion_symbol.data
decreasing_by
  apply paren_step_lt hx
  intro c hc
  rw [String.data_append, List.mem_append] at hc
  rcases hc with hc | hc
  · exact (Symbols.new_none_plain symbols c hc).1
  · obtain ⟨-, -, -, -, -, hops, -⟩ := next_parenthesized_expression_core_occurs hx
    exact isOp_ne_paren (hops c hc)

/-- `extensions.rs::convert_ebnf_parentheses`. -/
def convert_ebnf_parentheses (expansion : Expansion) (symbols : Symbols) :
    (Expansion × Expansions) × Symbols :=
  let r := convert_parentheses_loop expansion.string [] symbols
  ((Expansion.mk r.1.1 expansion.opts, r.1.2), r.2)

/-- Loop body of `extensions.rs::convert_ebnf_operators`: repeatedly replace
the next `<sym>op` by a fresh symbol defined by `operator_expansions`;
`none` embeds the unsupported-operator panic. -/
def convert_operators_loop (expansion_symbol : String)
    (new_expansions : Expansions) (symbols : Symbols) :
    Option ((String × Expansions) × Symbols) :=
  match hx : next_extended_nonterminal expansion_symbol with
  | none => some ((expansion_symbol, new_expansions), symbols)
  | some extension =>
    let r := symbols.new none
    match operator_expansions extension r.1 with
    | none => none
    | some alts =>
      convert_operators_loop
        (string_replacen expansion_symbol extension.token r.1)
        (insertExp new_expansions r.1 alts)
        r.2
termination_by opCount expansion_symbol.data
decreasing_by
  apply op_step_lt hx
  intro c hc
  exact (Symbols.new_none_plain symbols c hc).2

/-- `extensions.rs::convert_ebnf_operators`. -/
def convert_ebnf_operators (expansion : Expansion) (symbols : Symbols) :
    Option ((Expansion × Expansions) × Symbols) :=
  (convert_operators_loop expansion.string [] symbols).map fun r =>
    ((Expansion.mk r.1.1 expansion.opts, r.1.2), r.2)

/-- `extensions.rs::convert_grammar`: apply a pass to every alternative of
every symbol, visiting the keys in sorted order; each converted alternative
is pushed to its key's entry and the pass's new productions are merged in. -/
def convert_grammar (grammar : Grammar)
    (apply : Expansion → Symbols → Option ((Expansion × Expansions) × Symbols)) :
    Option Grammar :=
  let sorted_tokens := (keysList grammar).mergeSort fun a b => decide (a ≤ b)
  (sorted_tokens.foldlM (fun (st : Expansions × Symbols) tok =>
      match lookup grammar tok with
      | none => none
      | some alts =>
        alts.foldlM (fun (st2 : Expansions × Symbols) expansion =>
          (apply expansion st2.2).map
            fun (r : (Expansion × Expansions) × Symbols) =>
              (extendExp (pushEntry st2.1 tok r.1.1) r.1.2, r.2)) st)
    (([] : Expansions), Symbols.ofGrammar grammar)).map
    fun (st : Expansions × Symbols) => st.1

/-- `extensions.rs::ebnf_to_bnf`: the parenthesis pass followed by the
operator pass. -/
def ebnf_to_bnf (grammar : Grammar) : Option Grammar :=
  (convert_grammar grammar fun e sy => some (convert_ebnf_parentheses e sy)).bind
    fun g1 => convert_grammar g1 convert_ebnf_operators

/-! ## General lemmas about the minimum fold -/

theorem foldl_min_le_init (cs : List ℕ∞) (a : ℕ∞) : cs.foldl min a ≤ a := by
  induction cs generalizing a with
  | nil => exact le_refl a
  | cons x t ih =>
    exact le_trans (ih (min a x)) (min_le_left a x)

theorem foldl_min_le_mem (cs : List ℕ∞) (a : ℕ∞) :
    ∀ c ∈ cs, cs.foldl min a ≤ c := by
  induction cs generalizing a with
  | nil => intro c hc; cases hc
  | cons x t ih =>
    intro c hc
    rcases List.mem_cons.1 hc with rfl | hc
    · exact le_trans (foldl_min_le_init t (min a c)) (min_le_right a c)
    · exact ih (min a x) c hc

theorem foldl_min_eq_or_mem (cs : List ℕ∞) (a : ℕ∞) :
    cs.foldl min a = a ∨ cs.foldl min a ∈ cs := by
  induction cs generalizing a with
  | nil => exact Or.inl rfl
  | cons x t ih =>
    rcases ih (min a x) with h | h
    · rcases min_choice a x with hm | hm
      · exact Or.inl (by rw [List.foldl_cons, h, hm])
      · exact Or.inr (by rw [List.foldl_cons, h, hm]; exact List.mem_cons_self x t)
    · exact Or.inr (List.mem_cons_of_mem x h)

theorem foldl_min_top_mem {cs : List ℕ∞} (hne : cs ≠ []) :
    cs.foldl min ⊤ ∈ cs := by
  rcases foldl_min_eq_or_mem cs ⊤ with h | h
  · obtain ⟨x, t, rfl⟩ := List.exists_cons_of_ne_nil hne
    have hx := foldl_min_le_mem (x :: t) ⊤ x (List.mem_cons_self x t)
    rw [h] at hx
    have : x = ⊤ := top_le_iff.1 hx
    rw [h, ← this]
    exact List.mem_cons_self x t
  · exact h

theorem le_foldl_max_init (cs : List ℕ∞) (a : ℕ∞) : a ≤ cs.foldl max a := by
  induction cs generalizing a with
  | nil => exact le_refl a
  | cons y u ihu => exact le_trans (le_max_left a y) (ihu (max a y))

theorem foldl_max_le_mem (cs : List ℕ∞) (a : ℕ∞) :
    ∀ c ∈ cs, c ≤ cs.foldl max a := by
  induction cs generalizing a with
  | nil => intro c hc; cases hc
  | cons x t ih =>
    intro c hc
    rcases List.mem_cons.1 hc with rfl | hc
    · exact le_trans (le_max_right a c) (le_foldl_max_init t (max a c))
    · exact ih (max a x) c hc

theorem foldl_max_eq_or_mem (cs : List ℕ∞) (a : ℕ∞) :
    cs.foldl max a = a ∨ cs.foldl max a ∈ cs := by
  induction cs generalizing a with
  | nil => exact Or.inl rfl
  | cons x t ih =>
    rcases ih (max a x) with h | h
    · rcases max_choice a x with hm | hm
      · exact Or.inl (by rw [List.foldl_cons, h, hm])
      · exact Or.inr (by rw [List.foldl_cons, h, hm]; exact List.mem_cons_self x t)
    · exact Or.inr (List.mem_cons_of_mem x h)

theorem foldl_max_zero_mem {cs : List ℕ∞} (hne : cs ≠ []) (hpos : ∀ c ∈ cs, 1 ≤ c) :
    cs.foldl max 0 ∈ cs := by
  rcases foldl_max_eq_or_mem cs 0 with h | h
  · obtain ⟨x, t, rfl⟩ := List.exists_cons_of_ne_nil hne
    have hx := foldl_max_le_mem (x :: t) 0 x (List.mem_cons_self x t)
    rw [h] at hx
    have h1 := hpos x (List.mem_cons_self x t)
    have : (1 : ℕ∞) ≤ 0 := le_trans h1 hx
    simp at this
  · exact h

/-! ## Claim C5 -/

/-- C5: the token scan either fails or returns a token sequence whose texts
concatenate, left to right, to exactly the input string; it fails on input
that cannot be fully tokenized, such as the unmatched opening delimiter in
`<abc`. -/
theorem C5_tokens_account_for_input :
    (∀ (s : String) (ts : List Token), tokens s = some ts →
      concatTokens ts = s) ∧
    tokens (String.mk ['<', 'a', 'b', 'c']) = none := by
  constructor
  · intro s ts h
    exact tokens_concat h
  · decide

/-- Witness for C5: the theorem evaluated on the concrete input `a<b>`. -/
theorem C5_witness :
    concatTokens [Token.Terminal (String.mk ['a']),
      Token.Nonterminal (String.mk ['<', 'b', '>'])] =
      String.mk ['a', '<', 'b', '>'] := by
  apply C5_tokens_account_for_input.1
  decide

/-! ## Claim C3 -/

/-- C3: for every grammar, expansion and seen-set, `expansion_cost` equals 1
when the expansion's string contains no nonterminal tokens, equals ⊤ when at
least one of its nonterminal tokens is in `seen`, and otherwise equals one
plus the sum, over the nonterminal tokens in order with multiplicity, of
their symbol costs (a panic in a nested `symbol_cost` propagating as
`none`). -/
theorem C3_expansion_cost_cases (g : Grammar) (e : Expansion)
    (seen : Finset String) (ns : List String)
    (hns : nonterminal_tokens e.string = some ns) :
    (ns = [] → expansion_cost g e seen = some 1) ∧
    ((∃ n ∈ ns, n ∈ seen) → expansion_cost g e seen = some ⊤) ∧
    (ns ≠ [] → (∀ n ∈ ns, n ∉ seen) →
      expansion_cost g e seen =
        (seqOpt (ns.map fun n => symbol_cost g n seen)).map
          fun cs => 1 + cs.sum) := by
  rw [expansion_cost_eq, hns]
  refine ⟨?_, ?_, ?_⟩
  · intro h
    subst h
    simp
  · rintro ⟨n, hn, hseen⟩
    have hne : ¬ns.isEmpty := by
      rw [List.isEmpty_iff]
      intro h
      subst h
      cases hn
    have hany : ns.any fun tk => tk ∈ seen := by
      rw [List.any_eq_true]
      exact ⟨n, hn, by simpa using hseen⟩
    simp [hne, hany]
  · intro hne hall
    have hne' : ¬ns.isEmpty = true := by
      rw [List.isEmpty_iff]
      exact hne
    have hany : (ns.any fun tk => tk ∈ seen) = false := by
      rw [List.any_eq_false]
      intro n hn
      simpa using hall n hn
    simp [hne', hany]

/-- Witness for C3: the all-terminal expansion has cost 1 in the empty
grammar. -/
theorem C3_witness :
    expansion_cost [] (Expansion.mk (String.mk []) none) ∅ = some 1 := by
  apply (C3_expansion_cost_cases [] (Expansion.mk (String.mk []) none) ∅ []
    (by decide)).1
  rfl

/-! ## Claim C4 -/

/-- C4: for a defined symbol, `symbol_cost` is the minimum over its
alternatives of `expansion_cost` with the symbol inserted into the seen-set
(the fold from ⊤ is a lower bound of, and is attained in, the cost list);
for an undefined symbol it fails with a lookup error (`none`). -/
theorem C4_symbol_cost_min (g : Grammar) (s : String) (seen : Finset String) :
    (lookup g s = none → symbol_cost g s seen = none) ∧
    (∀ alts, lookup g s = some alts →
      symbol_cost g s seen =
        (seqOpt (alts.map fun a => expansion_cost g a (insert s seen))).map
          (fun cs => cs.foldl min ⊤) ∧
      ∀ cs,
        seqOpt (alts.map fun a => expansion_cost g a (insert s seen)) =
          some cs →
        (∀ c ∈ cs, cs.foldl min ⊤ ≤ c) ∧
        (cs ≠ [] → cs.foldl min ⊤ ∈ cs)) := by
  constructor
  · intro h
    rw [symbol_cost_eq, h]
  · intro alts h
    refine ⟨by rw [symbol_cost_eq, h], ?_⟩
    intro cs hcs
    exact ⟨foldl_min_le_mem cs ⊤, fun hne => foldl_min_top_mem hne⟩

/-! ## Random index selection lemmas -/

/-- Whatever `random_element` returns was an element satisfying the
predicate. -/
theorem random_element_mem {α : Type} {vs : List α} {p : α → Bool}
    {rand : ℕ} {x : α} (h : random_element vs p rand = some x) :
    x ∈ vs ∧ p x = true := by
  unfold random_element at h
  rw [Option.bind_eq_some] at h
  obtain ⟨j, hj, hx⟩ := h
  have hjmem : j ∈ (vs.enum.filter fun q => p q.2).map fun q => q.1 :=
    List.getElem?_mem hj
  rw [List.mem_map] at hjmem
  obtain ⟨⟨j', y⟩, hymem, hj'⟩ := hjmem
  rw [List.mem_filter] at hymem
  obtain ⟨hyenum, hpy⟩ := hymem
  rw [List.mk_mem_enum_iff_getElem?] at hyenum
  subst hj'
  rw [hyenum] at hx
  obtain rfl : y = x := by simpa using hx
  exact ⟨List.getElem?_mem hyenum, hpy⟩

/-- `random_element` with the trivial predicate succeeds on a non-empty
list. -/
theorem random_element_true_isSome {α : Type} {vs : List α} (hne : vs ≠ [])
    (rand : ℕ) :
    ∃ x, random_element vs (fun _ => true) rand = some x := by
  unfold random_element
  have hidxs : ((vs.enum.filter fun q => true).map fun q => q.1) =
      vs.enum.map fun q => q.1 := by
    simp
  rw [hidxs]
  have hlen : (vs.enum.map fun q => q.1).length = vs.length := by simp
  have hpos : 0 < vs.length := List.length_pos.2 hne
  dsimp only
  rw [hlen]
  have hidx : rand % vs.length < vs.length := Nat.mod_lt _ hpos
  have hget : (vs.enum.map fun q => q.1)[rand % vs.length]? =
      some ((vs.enum.map fun q => q.1)[rand % vs.length]) :=
    List.getElem?_eq_getElem (by omega)
  rw [hget]
  set j := (vs.enum.map fun q => q.1)[rand % vs.length] with hj
  have hjmem : j ∈ vs.enum.map fun q => q.1 := by
    rw [hj]
    exact List.getElem_mem _
  rw [List.mem_map] at hjmem
  obtain ⟨⟨j', y⟩, hymem, hj'⟩ := hjmem
  rw [List.mk_mem_enum_iff_getElem?] at hymem
  subst hj'
  exact ⟨y, by simp [hymem]⟩

/-- A successful `min_idx` returns an index of a minimal element. -/
theorem min_idx_eq_some {vs : List ℕ∞} {i rand : ℕ}
    (h : min_idx vs rand = some i) :
    vs[i]? = some (vs.foldl min ⊤) := by
  unfold min_idx at h
  by_cases he : vs.isEmpty
  · simp [he] at h
  · rw [if_neg he] at h
    have hi := (random_element_mem h).1
    rw [List.mem_map] at hi
    obtain ⟨⟨j, y⟩, hymem, hj⟩ := hi
    rw [List.mem_filter] at hymem
    obtain ⟨hyenum, hpy⟩ := hymem
    rw [List.mk_mem_enum_iff_getElem?] at hyenum
    subst hj
    obtain rfl : y = vs.foldl min ⊤ := by simpa using hpy
    exact hyenum

/-- `min_idx` succeeds on a non-empty cost list. -/
theorem min_idx_isSome {vs : List ℕ∞} (hne : vs ≠ []) (rand : ℕ) :
    ∃ i, min_idx vs rand = some i := by
  unfold min_idx
  rw [if_neg (by simpa [List.isEmpty_iff] using hne)]
  apply random_element_true_isSome
  intro hnil
  have hm := foldl_min_top_mem hne
  obtain ⟨j, hj⟩ := List.mem_iff_getElem?.1 hm
  have : (j, vs.foldl min ⊤) ∈
      vs.enum.filter fun p => p.2 = vs.foldl min ⊤ := by
    rw [List.mem_filter, List.mk_mem_enum_iff_getElem?]
    exact ⟨hj, by simp⟩
  rw [List.eq_nil_iff_forall_not_mem] at hnil
  exact hnil j (List.mem_map.2 ⟨_, this, rfl⟩)

/-- A successful `max_idx` returns an index of a maximal element. -/
theorem max_idx_eq_some {vs : List ℕ∞} {i rand : ℕ}
    (h : max_idx vs rand = some i) :
    vs[i]? = some (vs.foldl max 0) := by
  unfold max_idx at h
  by_cases he : vs.isEmpty
  · simp [he] at h
  · rw [if_neg he] at h
    have hi := (random_element_mem h).1
    rw [List.mem_map] at hi
    obtain ⟨⟨j, y⟩, hymem, hj⟩ := hi
    rw [List.mem_filter] at hymem
    obtain ⟨hyenum, hpy⟩ := hymem
    rw [List.mk_mem_enum_iff_getElem?] at hyenum
    subst hj
    obtain rfl : y = vs.foldl max 0 := by simpa using hpy
    exact hyenum

/-- `max_idx` succeeds when the maximum is attained, in particular on a
non-empty list of costs (each at least 1). -/
theorem max_idx_isSome {vs : List ℕ∞} (hne : vs ≠ [])
    (hpos : ∀ c ∈ vs, 1 ≤ c) (rand : ℕ) :
    ∃ i, max_idx vs rand = some i := by
  unfold max_idx
  rw [if_neg (by simpa [List.isEmpty_iff] using hne)]
  apply random_element_true_isSome
  intro hnil
  have hm := foldl_max_zero_mem hne hpos
  obtain ⟨j, hj⟩ := List.mem_iff_getElem?.1 hm
  have : (j, vs.foldl max 0) ∈
      vs.enum.filter fun p => p.2 = vs.foldl max 0 := by
    rw [List.mem_filter, List.mk_mem_enum_iff_getElem?]
    exact ⟨hj, by simp⟩
  rw [List.eq_nil_iff_forall_not_mem] at hnil
  exact hnil j (List.mem_map.2 ⟨_, this, rfl⟩)

/-- Every defined expansion cost is at least 1 (one derivation step). -/
theorem expansion_cost_one_le {g : Grammar} {e : Expansion}
    {seen : Finset String} {c : ℕ∞} (h : expansion_cost g e seen = some c) :
    1 ≤ c := by
  rw [expansion_cost_eq] at h
  cases hn : nonterminal_tokens e.string with
  | none => rw [hn] at h; cases h
  | some ns =>
    rw [hn] at h
    dsimp only at h
    by_cases he : ns.isEmpty
    · rw [if_pos he] at h
      obtain rfl : (1 : ℕ∞) = c := by simpa using h
      exact le_refl 1
    · rw [if_neg he] at h
      by_cases hs : ns.any fun tk => tk ∈ seen
      · rw [if_pos hs] at h
        obtain rfl : (⊤ : ℕ∞) = c := by simpa using h
        exact le_top
      · rw [if_neg hs, Option.map_eq_some'] at h
        obtain ⟨cs, -, rfl⟩ := h
        exact le_self_add

/-- Every entry of a successful `costs` list is at least 1. -/
theorem costs_one_le {g : Grammar} {sym : String} {alts : Alternatives}
    {cs : List ℕ∞} (h : costs g sym alts = some cs) : ∀ c ∈ cs, 1 ≤ c := by
  intro c hc
  have := seqOpt_eq_some h
  have hmem : some c ∈ alts.map fun e => expansion_cost g e {sym} := by
    rw [this]
    exact List.mem_map_of_mem _ hc
  rw [List.mem_map] at hmem
  obtain ⟨a, -, ha⟩ := hmem
  exact expansion_cost_one_le ha

/-- `costs` preserves the number of alternatives. -/
theorem costs_length {g : Grammar} {sym : String} {alts : Alternatives}
    {cs : List ℕ∞} (h : costs g sym alts = some cs) :
    cs.length = alts.length := by
  have := seqOpt_eq_some h
  have := congrArg List.length this
  simpa using this.symm

/-- Witness for C4: evaluated on the concrete one-production grammar
`<a> → "x"`. -/
theorem C4_witness :
    symbol_cost [(String.mk ['<', 'a', '>'],
        [Expansion.mk (String.mk ['x']) none])] (String.mk ['<', 'a', '>'])
      ∅ =
      (seqOpt ([Expansion.mk (String.mk ['x']) none].map fun a =>
        expansion_cost [(String.mk ['<', 'a', '>'],
          [Expansion.mk (String.mk ['x']) none])] a
          (insert (String.mk ['<', 'a', '>']) ∅))).map
        (fun cs => cs.foldl min ⊤) := by
  exact ((C4_symbol_cost_min
    [(String.mk ['<', 'a', '>'], [Expansion.mk (String.mk ['x']) none])]
    (String.mk ['<', 'a', '>']) ∅).2 [Expansion.mk (String.mk ['x']) none]
    (by simp [lookup])).1

/-! ## Claim C10 -/

/-- Counterexample to C10 as stated: in the grammar `<a> → "<b>"` (with
`<b>` undefined), `<a>` is a key with a non-empty alternatives list, yet
`CloseStrategy::choose` does not return `Some(_)` — the cost computation
panics on the undefined lookup (embedded as `none`). -/
theorem C10_counterexample :
    lookup [(String.mk ['<', 'a', '>'],
        [Expansion.mk (String.mk ['<', 'b', '>']) none])]
      (String.mk ['<', 'a', '>']) =
      some [Expansion.mk (String.mk ['<', 'b', '>']) none] ∧
    [Expansion.mk (String.mk ['<', 'b', '>']) none] ≠ [] ∧
    CloseStrategy.choose {}
      [(String.mk ['<', 'a', '>'],
        [Expansion.mk (String.mk ['<', 'b', '>']) none])]
      (Node.N (String.mk ['<', 'a', '>'])) 0 = none := by
  refine ⟨by decide, by decide, ?_⟩
  have h2 : symbol_cost
      [(String.mk ['<', 'a', '>'],
        [Expansion.mk (String.mk ['<', 'b', '>']) none])]
      (String.mk ['<', 'b', '>']) {String.mk ['<', 'a', '>']} = none := by
    rw [symbol_cost_eq]
    rw [show lookup [(String.mk ['<', 'a', '>'],
      [Expansion.mk (String.mk ['<', 'b', '>']) none])]
      (String.mk ['<', 'b', '>']) = none from by decide]
  have h3 : expansion_cost
      [(String.mk ['<', 'a', '>'],
        [Expansion.mk (String.mk ['<', 'b', '>']) none])]
      (Expansion.mk (String.mk ['<', 'b', '>']) none)
      {String.mk ['<', 'a', '>']} = none := by
    rw [expansion_cost_eq]
    rw [show nonterminal_tokens (String.mk ['<', 'b', '>']) =
      some [String.mk ['<', 'b', '>']] from by decide]
    have hne : String.mk ['<', 'b', '>'] ≠ String.mk ['<', 'a', '>'] := by
      decide
    simp [hne, h2, seqOpt]
  simp only [CloseStrategy.choose]
  rw [show lookup [(String.mk ['<', 'a', '>'],
    [Expansion.mk (String.mk ['<', 'b', '>']) none])]
    (String.mk ['<', 'a', '>']) =
    some [Expansion.mk (String.mk ['<', 'b', '>']) none] from by decide]
  simp [costs, h3, seqOpt]

/-- C10 (amended): every built-in strategy's `choose` returns `None` on
`Terminal` and `Expanded` nodes.  On `Unexpanded(sym)` with `sym` a key with
a non-empty alternatives list, `RandomStrategy::choose` returns `Some` of one
of the alternatives' strings; `GrowthStrategy::choose` and
`CloseStrategy::choose` do so provided the cost of every alternative is
defined (no undefined symbol is hit during the cost computation) — otherwise
they abort. -/
theorem C10_choose_amended :
    (∀ (st : RandomStrategy) (g : Grammar) (s : String) (ch : List Node)
      (rand : ℕ),
      RandomStrategy.choose st g (Node.T s) rand = none ∧
      RandomStrategy.choose st g (Node.EN s ch) rand = none) ∧
    (∀ (st : GrowthStrategy) (g : Grammar) (s : String) (ch : List Node)
      (rand : ℕ),
      GrowthStrategy.choose st g (Node.T s) rand = none ∧
      GrowthStrategy.choose st g (Node.EN s ch) rand = none) ∧
    (∀ (st : CloseStrategy) (g : Grammar) (s : String) (ch : List Node)
      (rand : ℕ),
      CloseStrategy.choose st g (Node.T s) rand = none ∧
      CloseStrategy.choose st g (Node.EN s ch) rand = none) ∧
    (∀ (st : RandomStrategy) (g : Grammar) (sym : String)
      (alts : Alternatives) (rand : ℕ),
      lookup g sym = some alts → alts ≠ [] →
      ∃ e, RandomStrategy.choose st g (Node.N sym) rand = some e ∧
        e ∈ alts.map Expansion.string) ∧
    (∀ (st : GrowthStrategy) (g : Grammar) (sym : String)
      (alts : Alternatives) (cs : List ℕ∞) (rand : ℕ),
      lookup g sym = some alts → alts ≠ [] → costs g sym alts = some cs →
      ∃ e, GrowthStrategy.choose st g (Node.N sym) rand = some e ∧
        e ∈ alts.map Expansion.string) ∧
    (∀ (st : CloseStrategy) (g : Grammar) (sym : String)
      (alts : Alternatives) (cs : List ℕ∞) (rand : ℕ),
      lookup g sym = some alts → alts ≠ [] → costs g sym alts = some cs →
      ∃ e, CloseStrategy.choose st g (Node.N sym) rand = some e ∧
        e ∈ alts.map Expansion.string) := by
  refine ⟨fun st g s ch rand => ⟨rfl, rfl⟩,
    fun st g s ch rand => ⟨rfl, rfl⟩,
    fun st g s ch rand => ⟨rfl, rfl⟩, ?_, ?_, ?_⟩
  · intro st g sym alts rand hl hne
    simp only [RandomStrategy.choose, hl, Option.some_bind]
    rw [if_neg (by simpa [List.isEmpty_iff] using hne)]
    have hlen : 0 < alts.length := List.length_pos.2 hne
    have hidx : rand % alts.length < alts.length := Nat.mod_lt _ hlen
    rw [List.getElem?_eq_getElem hidx]
    exact ⟨(alts[rand % alts.length]).string, rfl,
      List.mem_map_of_mem _ (List.getElem_mem _)⟩
  · intro st g sym alts cs rand hl hne hcs
    simp only [GrowthStrategy.choose, hl, Option.some_bind, hcs]
    have hcsne : cs ≠ [] := by
      intro h
      subst h
      have hlen0 : alts.length = 0 := by simpa using (costs_length hcs).symm
      exact hne (List.length_eq_zero.1 hlen0)
    obtain ⟨i, hi⟩ := max_idx_isSome hcsne (costs_one_le hcs) rand
    have hilt : i < alts.length := by
      have := List.getElem?_eq_some.1 (max_idx_eq_some hi)
      obtain ⟨hh, -⟩ := this
      rw [costs_length hcs] at hh
      exact hh
    refine ⟨(alts[i]).string, ?_, List.mem_map_of_mem _ (List.getElem_mem _)⟩
    rw [hi, Option.some_bind, List.getElem?_eq_getElem hilt]
    rfl
  · intro st g sym alts cs rand hl hne hcs
    simp only [CloseStrategy.choose, hl, Option.some_bind, hcs]
    have hcsne : cs ≠ [] := by
      intro h
      subst h
      have hlen0 : alts.length = 0 := by simpa using (costs_length hcs).symm
      exact hne (List.length_eq_zero.1 hlen0)
    obtain ⟨i, hi⟩ := min_idx_isSome hcsne rand
    have hilt : i < alts.length := by
      have := List.getElem?_eq_some.1 (min_idx_eq_some hi)
      obtain ⟨hh, -⟩ := this
      rw [costs_length hcs] at hh
      exact hh
    refine ⟨(alts[i]).string, ?_, List.mem_map_of_mem _ (List.getElem_mem _)⟩
    rw [hi, Option.some_bind, List.getElem?_eq_getElem hilt]
    rfl

/-- Witness for C10 (amended): `CloseStrategy` on the grammar `<a> → "x"`
actually picks the alternative `x`. -/
theorem C10_witness :
    ∃ e, CloseStrategy.choose {}
      [(String.mk ['<', 'a', '>'], [Expansion.mk (String.mk ['x']) none])]
      (Node.N (String.mk ['<', 'a', '>'])) 0 = some e ∧
      e ∈ [Expansion.mk (String.mk ['x']) none].map Expansion.string := by
  apply C10_choose_amended.2.2.2.2.2 {}
    [(String.mk ['<', 'a', '>'], [Expansion.mk (String.mk ['x']) none])]
    (String.mk ['<', 'a', '>']) [Expansion.mk (String.mk ['x']) none]
    [1] 0 (by decide) (by decide)
  show seqOpt [expansion_cost _ (Expansion.mk (String.mk ['x']) none)
    {String.mk ['<', 'a', '>']}] = some [1]
  rw [show expansion_cost
      [(String.mk ['<', 'a', '>'], [Expansion.mk (String.mk ['x']) none])]
      (Expansion.mk (String.mk ['x']) none)
      {String.mk ['<', 'a', '>']} = some 1 from by
    rw [expansion_cost_eq]
    rw [show nonterminal_tokens (String.mk ['x']) = some [] from by decide]
    rfl]
  rfl

/-! ## Claim C9 -/

/-- When the operator pass returns at all, no extended nonterminal remains in
the rewritten expansion string: the loop only stops on `None`. -/
theorem convert_operators_loop_exhausts (s : String) (ne : Expansions)
    (sy : Symbols) :
    ∀ r, convert_operators_loop s ne sy = some r →
      next_extended_nonterminal r.1.1 = none := by
  induction s, ne, sy using convert_operators_loop.induct with
  | case1 s ne sy hx =>
    intro r h
    rw [convert_operators_loop.eq_def] at h
    rw [hx] at h
    obtain rfl : ((s, ne), sy) = r := by simpa using h
    exact hx
  | case2 s ne sy ext hx r0 hop =>
    intro r h
    rw [convert_operators_loop.eq_def] at h
    rw [hx] at h
    dsimp only at h
    rw [hop] at h
    cases h
  | case3 s ne sy ext hx r0 alts hop ih =>
    intro r h
    rw [convert_operators_loop.eq_def] at h
    rw [hx] at h
    dsimp only at h
    rw [hop] at h
    exact ih r h

/-- C9: in the operator pass, an occurrence of a nonterminal followed by a
repetition operator is replaced by a fresh symbol whose alternatives are
exactly `["", S]` for `?`, `["", S ++ F]` for `*`, `[S, S ++ F]` for `+`;
any other operator is a fatal error (the pass returns `none`); and a
completed pass leaves no nonterminal-plus-operator occurrence behind. -/
theorem C9_operator_pass :
    (∀ (ext : ExtendedNonterminal) (F : String),
      (ext.op = String.mk ['?'] → operator_expansions ext F =
        some [Expansion.mk (String.mk []) none,
          Expansion.mk ext.symbol none]) ∧
      (ext.op = String.mk ['*'] → operator_expansions ext F =
        some [Expansion.mk (String.mk []) none,
          Expansion.mk (ext.symbol ++ F) none]) ∧
      (ext.op = String.mk ['+'] → operator_expansions ext F =
        some [Expansion.mk ext.symbol none,
          Expansion.mk (ext.symbol ++ F) none]) ∧
      (ext.op ≠ String.mk ['?'] → ext.op ≠ String.mk ['*'] →
        ext.op ≠ String.mk ['+'] → operator_expansions ext F = none)) ∧
    (∀ (s : String) (ne : Expansions) (sy : Symbols)
      (r : (String × Expansions) × Symbols),
      convert_operators_loop s ne sy = some r →
      next_extended_nonterminal r.1.1 = none) := by
  constructor
  · intro ext F
    refine ⟨?_, ?_, ?_, ?_⟩
    · intro h
      unfold operator_expansions
      rw [if_pos (by rw [h])]
    · intro h
      unfold operator_expansions
      rw [if_neg (by rw [h]; decide), if_pos (by rw [h])]
    · intro h
      unfold operator_expansions
      rw [if_neg (by rw [h]; decide), if_neg (by rw [h]; decide),
        if_pos (by rw [h])]
    · intro h1 h2 h3
      unfold operator_expansions
      rw [if_neg (by
          intro hc
          exact h1 (by rw [hc])),
        if_neg (by
          intro hc
          exact h2 (by rw [hc])),
        if_neg (by
          intro hc
          exact h3 (by rw [hc]))]
  · intro s ne sy r h
    exact convert_operators_loop_exhausts s ne sy r h

/-- Witness for C9: the `*` row of the table evaluated on the concrete
occurrence `<a>*` with fresh symbol `<f>`, and an already-plain string
passing through the loop unchanged. -/
theorem C9_witness :
    operator_expansions
      (ExtendedNonterminal.mk (String.mk ['<', 'a', '>', '*'])
        (String.mk ['*']) (String.mk ['<', 'a', '>']))
      (String.mk ['<', 'f', '>']) =
      some [Expansion.mk (String.mk []) none,
        Expansion.mk (String.mk ['<', 'a', '>'] ++ String.mk ['<', 'f', '>'])
          none] ∧
    next_extended_nonterminal (String.mk ['x']) = none := by
  constructor
  · exact ((C9_operator_pass.1
      (ExtendedNonterminal.mk (String.mk ['<', 'a', '>', '*'])
        (String.mk ['*']) (String.mk ['<', 'a', '>']))
      (String.mk ['<', 'f', '>'])).2.1) rfl
  · apply C9_operator_pass.2 (String.mk ['x']) [] (Symbols.mk ∅)
      ((String.mk ['x'], []), Symbols.mk ∅)
    rw [convert_operators_loop.eq_def]
    rw [show next_extended_nonterminal (String.mk ['x']) = none from by decide]

/-! ## Claim C7 -/

/-- A run of `n` consecutive fresh-symbol allocations (the way both
normalisation passes use `Symbols::new(None)`), returning the minted names in
order together with the final allocator state. -/
def allocRun (sy : Symbols) : ℕ → List String × Symbols
  | 0 => ([], sy)
  | n + 1 =>
    let r := sy.new none
    let rest := allocRun r.2 n
    (r.1 :: rest.1, rest.2)

theorem allocRun_spec : ∀ (n : ℕ) (sy : Symbols),
    ((allocRun sy n).2).existing_nonterminals =
      sy.existing_nonterminals ∪ ((allocRun sy n).1).toFinset ∧
    (allocRun sy n).1.Nodup ∧
    ∀ nm ∈ (allocRun sy n).1, nm ∉ sy.existing_nonterminals := by
  intro n
  induction n with
  | zero =>
    intro sy
    refine ⟨by simp [allocRun], by simp [allocRun], by simp [allocRun]⟩
  | succ n ih =>
    intro sy
    obtain ⟨ih1, ih2, ih3⟩ := ih (sy.new none).2
    have hres := Symbols.new_reserves sy none
    have hfresh := Symbols.new_fresh sy none
    refine ⟨?_, ?_, ?_⟩
    · show ((allocRun (sy.new none).2 n).2).existing_nonterminals =
        sy.existing_nonterminals ∪
          ((sy.new none).1 :: (allocRun (sy.new none).2 n).1).toFinset
      rw [ih1, hres]
      simp only [List.toFinset_cons]
      rw [Finset.union_insert, Finset.insert_union]
    · show ((sy.new none).1 :: (allocRun (sy.new none).2 n).1).Nodup
      rw [List.nodup_cons]
      refine ⟨?_, ih2⟩
      intro hmem
      have := ih3 _ hmem
      rw [hres] at this
      exact this (Finset.mem_insert_self _ _)
    · show ∀ nm ∈ (sy.new none).1 :: (allocRun (sy.new none).2 n).1,
        nm ∉ sy.existing_nonterminals
      intro nm hnm
      rcases List.mem_cons.1 hnm with rfl | hnm
      · exact hfresh
      · intro hc
        have := ih3 nm hnm
        rw [hres] at this
        exact this (Finset.mem_insert_of_mem hc)

/-- C7: each fresh-symbol allocation returns a name not currently reserved
and reserves it immediately (the new state is exactly the old one plus the
name); consequently, over any run of allocations starting from a grammar's
key set, the minted names are pairwise distinct and distinct from every
original key. -/
theorem C7_fresh_symbol_allocation :
    (∀ (sy : Symbols) (arg : Option String),
      (sy.new arg).1 ∉ sy.existing_nonterminals ∧
      ((sy.new arg).2).existing_nonterminals =
        insert (sy.new arg).1 sy.existing_nonterminals) ∧
    (∀ (g : Grammar) (n : ℕ),
      (allocRun (Symbols.ofGrammar g) n).1.Nodup ∧
      ∀ nm ∈ (allocRun (Symbols.ofGrammar g) n).1, nm ∉ keysFinset g) := by
  constructor
  · intro sy arg
    exact ⟨Symbols.new_fresh sy arg, Symbols.new_reserves sy arg⟩
  · intro g n
    obtain ⟨-, h2, h3⟩ := allocRun_spec n (Symbols.ofGrammar g)
    exact ⟨h2, h3⟩

/-- Witness for C7: two allocations from the empty grammar mint distinct
fresh names. -/
theorem C7_witness :
    (allocRun (Symbols.ofGrammar []) 2).1.Nodup ∧
    ∀ nm ∈ (allocRun (Symbols.ofGrammar []) 2).1, nm ∉ keysFinset [] :=
  (C7_fresh_symbol_allocation.2 [] 2)

/-! ## Claim C2 -/

theorem zip_filter_top_empty {α : Type} {f : α → Option ℕ∞} :
    ∀ {l : List α} {cs : List ℕ∞}, l.map f = cs.map some →
      (((((l.zip cs).filter fun p => p.2 = ⊤).map fun p => p.1) = []) ↔
        ∀ s ∈ l, f s ≠ some ⊤) := by
  intro l
  induction l with
  | nil =>
    intro cs h
    simp
  | cons x l' ih =>
    intro cs h
    cases cs with
    | nil => simp at h
    | cons c cs' =>
      simp only [List.map_cons, List.cons.injEq] at h
      obtain ⟨hx, hl'⟩ := h
      by_cases hc : c = ⊤
      · subst hc
        constructor
        · intro habs
          exfalso
          simp [List.zip_cons_cons, List.filter_cons] at habs
        · intro hall
          exact absurd hx (by simpa using hall x (List.mem_cons_self x l'))
      · constructor
        · intro hempty s hs
          rcases List.mem_cons.1 hs with rfl | hs
          · rw [hx]
            simpa using hc
          · refine (ih hl').1 ?_ s hs
            simpa [List.zip_cons_cons, List.filter_cons, hc] using hempty
        · intro hall
          have := (ih hl').2 fun s hs => hall s (List.mem_cons_of_mem _ hs)
          simpa [List.zip_cons_cons, List.filter_cons, hc] using this

theorem reachLoop_nil (g : Grammar) (res : Finset String) :
    reachLoop g [] res = some res := by
  rw [reachLoop.eq_def]

theorem reachLoop_cons_mem {g : Grammar} {sym : String} {rest : List String}
    {res : Finset String} (h : sym ∈ res) :
    reachLoop g (sym :: rest) res = reachLoop g rest res := by
  rw [reachLoop.eq_def]
  simp [h]

theorem reachLoop_cons_new {g : Grammar} {sym : String} {rest : List String}
    {res : Finset String} {ts : List String} (h : sym ∉ res)
    (hts : successor_tokens g sym = some ts) :
    reachLoop g (sym :: rest) res =
      reachLoop g (ts.reverse ++ rest) (insert sym res) := by
  rw [reachLoop.eq_def]
  dsimp only
  rw [dif_neg h]
  split
  · rename_i hn
    rw [hts] at hn
    cases hn
  · rename_i ts' hn
    rw [hts] at hn
    obtain rfl : ts = ts' := by simpa using hn
    rfl

/-- Counterexample to C2 as stated: on the grammar `<start> → "<missing>"`
the symbol `<missing>` is reachable but undefined, yet `is_valid_grammar`
does not complete the analysis and return `false` — the cost scan inside
`find_unavoidable_cycle` hits the undefined lookup and panics (embedded as
`none`). -/
theorem C2_counterexample :
    is_valid_grammar [("<start>", [Expansion.mk "<missing>" none])] none =
      none ∧
    find_reachable_nonterminals [("<start>", [Expansion.mk "<missing>" none])]
      "<start>" = some (insert "<missing>" {"<start>"}) ∧
    ("<missing>" : String) ∉
      keysFinset [("<start>", [Expansion.mk "<missing>" none])] := by
  have hsucc1 : successor_tokens [("<start>", [Expansion.mk "<missing>" none])]
      "<start>" = some ["<missing>"] := by decide
  have hsucc2 : successor_tokens [("<start>", [Expansion.mk "<missing>" none])]
      "<missing>" = some [] := by decide
  have hreach : find_reachable_nonterminals
      [("<start>", [Expansion.mk "<missing>" none])] "<start>" =
      some (insert "<missing>" {"<start>"}) := by
    unfold find_reachable_nonterminals
    rw [reachLoop_cons_new (by decide) hsucc1]
    rw [show (["<missing>"].reverse ++ [] : List String) = ["<missing>"]
      from rfl]
    rw [reachLoop_cons_new (by decide) hsucc2]
    rw [show (([] : List String).reverse ++ [] : List String) = [] from rfl]
    rw [reachLoop_nil]
    rfl
  have hcost : symbol_cost [("<start>", [Expansion.mk "<missing>" none])]
      "<missing>" {"<start>"} = none := by
    rw [symbol_cost_eq]
    rw [show lookup [("<start>", [Expansion.mk "<missing>" none])]
      "<missing>" = none from by decide]
  have hexp : expansion_cost [("<start>", [Expansion.mk "<missing>" none])]
      (Expansion.mk "<missing>" none) {"<start>"} = none := by
    rw [expansion_cost_eq]
    rw [show nonterminal_tokens "<missing>" = some ["<missing>"] from by
      decide]
    have hne : ("<missing>" : String) ≠ "<start>" := by decide
    simp [hne, hcost, seqOpt]
  have hscost : symbol_cost [("<start>", [Expansion.mk "<missing>" none])]
      "<start>" ∅ = none := by
    rw [symbol_cost_eq]
    rw [show lookup [("<start>", [Expansion.mk "<missing>" none])]
      "<start>" = some [Expansion.mk "<missing>" none] from by decide]
    rw [show (insert "<start>" ∅ : Finset String) = {"<start>"} from rfl]
    simp [hexp, seqOpt]
  have hcyc : find_unavoidable_cycle
      [("<start>", [Expansion.mk "<missing>" none])] = none := by
    unfold find_unavoidable_cycle
    rw [show keysList [("<start>", [Expansion.mk "<missing>" none])] =
      ["<start>"] from rfl]
    simp [hscost, seqOpt]
  refine ⟨?_, hreach, by decide⟩
  unfold is_valid_grammar
  dsimp only [Option.getD_none]
  rw [hreach]
  dsimp only
  rw [hcyc]

/-- C2 (amended): provided the reachability scan returns and the cost of
every defined symbol is defined (no undefined lookup is hit during the cost
analysis), `is_valid_grammar` returns a boolean that is `true` iff every
nonterminal reachable from the start symbol (default `<start>`) is a key and
no defined symbol has an infinite cost from the empty seen-set.  When the
cost analysis does hit an undefined symbol the function aborts instead of
returning `false` (see the counterexample). -/
theorem C2_is_valid_amended (g : Grammar) (start_symbol : Option String)
    (reach : Finset String)
    (hreach : find_reachable_nonterminals g (start_symbol.getD "<start>") =
      some reach)
    (hdef : ∀ s ∈ keysList g, symbol_cost g s ∅ ≠ none) :
    (is_valid_grammar g start_symbol).isSome ∧
    (is_valid_grammar g start_symbol = some true ↔
      (reach ⊆ keysFinset g ∧
        ∀ s ∈ keysList g, symbol_cost g s ∅ ≠ some ⊤)) := by
  obtain ⟨costs, hcosts⟩ : ∃ cs,
      seqOpt ((keysList g).map fun s => symbol_cost g s ∅) = some cs := by
    apply seqOpt_isSome
    intro o ho
    rw [List.mem_map] at ho
    obtain ⟨s, hs, rfl⟩ := ho
    exact Option.isSome_iff_ne_none.2 (hdef s hs)
  have hcyc : find_unavoidable_cycle g =
      some ((((keysList g).zip costs).filter fun p => p.2 = ⊤).map
        fun p => p.1) := by
    unfold find_unavoidable_cycle
    rw [hcosts]
    rfl
  have hvalid : is_valid_grammar g start_symbol =
      some (decide (reach \ keysFinset g = ∅) &&
        decide (((((keysList g).zip costs).filter fun p => p.2 = ⊤).map
          fun p => p.1) = [])) := by
    unfold is_valid_grammar
    dsimp only
    rw [hreach]
    dsimp only
    rw [hcyc]
  rw [hvalid]
  refine ⟨rfl, ?_⟩
  rw [Option.some.injEq]
  rw [Bool.and_eq_true, decide_eq_true_iff, decide_eq_true_iff]
  rw [Finset.sdiff_eq_empty_iff_subset]
  rw [zip_filter_top_empty (seqOpt_eq_some hcosts)]

/-- Witness for C2 (amended): the one-production grammar `<start> → "x"` is
accepted. -/
theorem C2_witness :
    is_valid_grammar [("<start>", [Expansion.mk "x" none])] none =
      some true := by
  have hsucc : successor_tokens [("<start>", [Expansion.mk "x" none])]
      "<start>" = some [] := by decide
  have hreach : find_reachable_nonterminals
      [("<start>", [Expansion.mk "x" none])] "<start>" =
      some {"<start>"} := by
    unfold find_reachable_nonterminals
    rw [reachLoop_cons_new (by decide) hsucc]
    rw [show (([] : List String).reverse ++ [] : List String) = [] from rfl]
    rw [reachLoop_nil]
    rfl
  have hexp : expansion_cost [("<start>", [Expansion.mk "x" none])]
      (Expansion.mk "x" none) {"<start>"} = some 1 := by
    rw [expansion_cost_eq]
    rw [show nonterminal_tokens "x" = some [] from by decide]
    rfl
  have hscost : symbol_cost [("<start>", [Expansion.mk "x" none])]
      "<start>" ∅ = some 1 := by
    rw [symbol_cost_eq]
    rw [show lookup [("<start>", [Expansion.mk "x" none])] "<start>" =
      some [Expansion.mk "x" none] from by decide]
    dsimp only
    rw [show (insert "<start>" ∅ : Finset String) = {"<start>"} from rfl]
    rw [show seqOpt ([Expansion.mk "x" none].map fun a =>
      expansion_cost [("<start>", [Expansion.mk "x" none])] a
        {"<start>"}) = some [1] from by
      simp [seqOpt, hexp]]
    rfl
  have := C2_is_valid_amended [("<start>", [Expansion.mk "x" none])] none
    {"<start>"} hreach (by
      intro s hs
      rw [show keysList [("<start>", [Expansion.mk "x" none])] =
        ["<start>"] from rfl] at hs
      rw [List.mem_singleton] at hs
      subst hs
      rw [hscost]
      exact fun hx => Option.noConfusion hx)
  rw [this.2]
  refine ⟨by decide, ?_⟩
  intro s hs
  rw [show keysList [("<start>", [Expansion.mk "x" none])] =
    ["<start>"] from rfl] at hs
  rw [List.mem_singleton] at hs
  subst hs
  rw [hscost]
  intro hc
  rw [Option.some.injEq] at hc
  exact absurd hc (by simp)

/-! ## Claim C8 -/

/-- Exactly one `Unexpanded` node is replaced, in place, by an `Expanded`
node whose children are scanned from a string the chooser allows; every node
off the path — in particular every sibling of the rewritten child — is
untouched (`List.set` changes the one position only). -/
inductive ReplacesOneUnexpanded (C : String → String → Prop) :
    Node → Node → Prop where
  | here (sym e : String) (ch : List Node) :
      C sym e → children_from e = some ch →
      ReplacesOneUnexpanded C (Node.N sym) (Node.EN sym ch)
  | child (sym : String) (ch : List Node) (j : ℕ) (c' : Node)
      (hj : j < ch.length) :
      ReplacesOneUnexpanded C ch[j] c' →
      ReplacesOneUnexpanded C (Node.EN sym ch) (Node.EN sym (ch.set j c'))

/-- C8: one `expand_tree_once` call mutates at most one node: a `Terminal`
root and an `Expanded` node with no expandable descendant are left entirely
unchanged, and otherwise exactly one `Unexpanded` node is replaced in place
by an `Expanded` node with children scanned from the chosen expansion (the
empty scan yielding the single empty-terminal child inside
`children_from`), all other nodes being preserved. -/
theorem C8_expand_once_frame {C : String → String → Prop} {t t' : Node}
    (h : ExpandOnce C t t') :
    (any_possible_expansions t = false ∧ t' = t) ∨
    (any_possible_expansions t = true ∧ ReplacesOneUnexpanded C t t') := by
  induction h with
  | terminal s => exact Or.inl ⟨rfl, rfl⟩
  | unexpanded sym e ch hC hch =>
    exact Or.inr ⟨rfl, ReplacesOneUnexpanded.here sym e ch hC hch⟩
  | noop sym ch hall =>
    refine Or.inl ⟨?_, rfl⟩
    have : anyChildren ch = false := by
      rw [anyChildren_eq, List.any_eq_false]
      intro c hc
      rw [hall c hc]
      exact Bool.false_ne_true
    simpa [any_possible_expansions] using this
  | child sym ch j c' hj hany hsub ih =>
    refine Or.inr ⟨?_, ?_⟩
    · have : anyChildren ch = true := by
        rw [anyChildren_eq, List.any_eq_true]
        exact ⟨ch[j], List.getElem_mem hj, hany⟩
      simpa [any_possible_expansions] using this
    · rcases ih with ⟨hf, -⟩ | ⟨-, hrep⟩
      · rw [hany] at hf
        cases hf
      · exact ReplacesOneUnexpanded.child sym ch j c' hj hrep

/-- Witness for C8: a concrete step expanding `<a>` by the terminal
alternative `x`. -/
theorem C8_witness :
    (any_possible_expansions (Node.N "<a>") = false ∧
      Node.EN "<a>" [Node.T "x"] = Node.N "<a>") ∨
    (any_possible_expansions (Node.N "<a>") = true ∧
      ReplacesOneUnexpanded (fun s e => s = "<a>" ∧ e = "x")
        (Node.N "<a>") (Node.EN "<a>" [Node.T "x"])) := by
  apply C8_expand_once_frame
  exact ExpandOnce.unexpanded "<a>" "x" [Node.T "x"] ⟨rfl, rfl⟩ rfl

/-! ## Claim C6 -/

theorem lookup_none_of_not_mem {g : Grammar} {k : String}
    (h : k ∉ keysList g) : lookup g k = none := by
  unfold lookup
  rw [List.find?_eq_none.2, Option.map_none']
  intro p hp hbeq
  exact h (List.mem_map.2 ⟨p, hp, (by simpa using hbeq : p.1 = k)⟩)

theorem mem_keysList_of_lookup {g : Grammar} {k : String}
    {alts : Alternatives} (h : lookup g k = some alts) : k ∈ keysList g := by
  unfold lookup at h
  rw [Option.map_eq_some'] at h
  obtain ⟨p, hp, -⟩ := h
  have hmem := List.mem_of_find?_eq_some hp
  have hbeq := List.find?_some hp
  exact List.mem_map.2 ⟨p, hmem, by simpa using hbeq⟩

theorem lookup_isSome_of_mem {g : Grammar} {k : String}
    (h : k ∈ keysList g) : (lookup g k).isSome := by
  cases hl : lookup g k with
  | some alts => rfl
  | none =>
    exfalso
    unfold lookup at hl
    rw [Option.map_eq_none', List.find?_eq_none] at hl
    unfold keysList at h
    rw [List.mem_map] at h
    obtain ⟨p, hp, rfl⟩ := h
    exact hl p hp (by simp)

/-- The alternatives of a defined key (used to describe the identity pass's
output). -/
def altsOf (g : Grammar) (k : String) : Alternatives := (lookup g k).getD []

theorem lookup_eq_altsOf {g : Grammar} {k : String} (h : k ∈ keysList g) :
    lookup g k = some (altsOf g k) := by
  cases hl : lookup g k with
  | some alts => rw [altsOf, hl]; rfl
  | none =>
    exfalso
    have := lookup_isSome_of_mem h
    rw [hl] at this
    cases this

theorem convert_parentheses_loop_of_none {s : String} {ne : Expansions}
    {sy : Symbols} (h : next_parenthesized_expression s = none) :
    convert_parentheses_loop s ne sy = ((s, ne), sy) := by
  rw [convert_parentheses_loop.eq_def]
  split
  · rfl
  · rename_i pe hx
    rw [h] at hx
    cases hx

theorem convert_operators_loop_of_none {s : String} {ne : Expansions}
    {sy : Symbols} (h : next_extended_nonterminal s = none) :
    convert_operators_loop s ne sy = some ((s, ne), sy) := by
  rw [convert_operators_loop.eq_def]
  split
  · rfl
  · rename_i ext hx
    rw [h] at hx
    cases hx

/-- On a plain alternative the parenthesis pass is the identity and mints
nothing. -/
theorem convert_ebnf_parentheses_plain {e : Expansion} {sy : Symbols}
    (h : next_parenthesized_expression e.string = none) :
    convert_ebnf_parentheses e sy = ((e, []), sy) := by
  unfold convert_ebnf_parentheses
  rw [convert_parentheses_loop_of_none h]

/-- On a plain alternative the operator pass is the identity and mints
nothing. -/
theorem convert_ebnf_operators_plain {e : Expansion} {sy : Symbols}
    (h : next_extended_nonterminal e.string = none) :
    convert_ebnf_operators e sy = some ((e, []), sy) := by
  unfold convert_ebnf_operators
  rw [convert_operators_loop_of_none h]
  rfl

/-- Keys of `es ++ [(tok, acc)]`. -/
theorem pushEntry_grow {es : Expansions} {tok : String}
    (hnot : tok ∉ keysList es) (e : Expansion) :
    pushEntry es tok e = es ++ [(tok, [e])] := by
  unfold pushEntry
  rw [if_neg]
  rw [List.any_eq_true]
  rintro ⟨p, hp, hbeq⟩
  exact hnot (List.mem_map.2 ⟨p, hp, (by simpa using hbeq : p.1 = tok)⟩)

theorem pushEntry_last {es : Expansions} {tok : String}
    (hnot : tok ∉ keysList es) (acc : Alternatives) (e : Expansion) :
    pushEntry (es ++ [(tok, acc)]) tok e = es ++ [(tok, acc ++ [e])] := by
  unfold pushEntry
  rw [if_pos]
  · rw [List.map_append]
    congr 1
    · refine (List.map_congr_left ?_).trans (List.map_id es)
      intro p hp
      show (if (p.1 == tok) = true then (p.1, p.2 ++ [e]) else p) = id p
      rw [if_neg]
      · rfl
      · intro hbeq
        exact hnot (List.mem_map.2 ⟨p, hp, (by simpa using hbeq : p.1 = tok)⟩)
    · simp
  · rw [List.any_eq_true]
    exact ⟨(tok, acc), by simp, by simp⟩

theorem pushEntry_fold {es : Expansions} {tok : String}
    (hnot : tok ∉ keysList es) :
    ∀ (alts acc : Alternatives),
      alts.foldl (fun es2 e => pushEntry es2 tok e) (es ++ [(tok, acc)]) =
        es ++ [(tok, acc ++ alts)] := by
  intro alts
  induction alts with
  | nil => intro acc; simp
  | cons e rest ih =>
    intro acc
    rw [List.foldl_cons, pushEntry_last hnot acc e, ih (acc ++ [e])]
    simp

theorem optionSomeBind {α β : Type} (a : α) (f : α → Option β) :
    (some a >>= f) = f a := rfl

theorem pushEntry_fold_full {es : Expansions} {tok : String}
    (hnot : tok ∉ keysList es) {alts : Alternatives} (hne : alts ≠ []) :
    alts.foldl (fun es2 e => pushEntry es2 tok e) es = es ++ [(tok, alts)] := by
  obtain ⟨e, rest, rfl⟩ := List.exists_cons_of_ne_nil hne
  rw [List.foldl_cons, pushEntry_grow hnot e, pushEntry_fold hnot rest [e]]
  simp

/-- The inner `convert_grammar` fold over one key's alternatives when the
pass is the identity on each of them. -/
theorem inner_foldM_id
    {apply : Expansion → Symbols → Option ((Expansion × Expansions) × Symbols)}
    {tok : String} {sy : Symbols} :
    ∀ (alts : Alternatives) (es2 : Expansions),
      (∀ e ∈ alts, apply e sy = some ((e, []), sy)) →
      alts.foldlM (fun (st2 : Expansions × Symbols) expansion =>
        (apply expansion st2.2).map
          fun (r : (Expansion × Expansions) × Symbols) =>
            (extendExp (pushEntry st2.1 tok r.1.1) r.1.2, r.2)) (es2, sy) =
        some (alts.foldl (fun es3 e => pushEntry es3 tok e) es2, sy) := by
  intro alts
  induction alts with
  | nil => intro es2 h; rfl
  | cons e rest ih =>
    intro es2 h
    rw [List.foldlM_cons]
    rw [h e (List.mem_cons_self e rest)]
    show (some (extendExp (pushEntry es2 tok e) [], sy)).bind _ = _
    rw [show extendExp (pushEntry es2 tok e) [] = pushEntry es2 tok e
      from rfl]
    rw [Option.some_bind]
    rw [ih (pushEntry es2 tok e) fun e2 he2 => h e2 (List.mem_cons_of_mem _ he2)]
    rfl

theorem keysList_append_entry (es : Expansions) (tok : String)
    (alts : Alternatives) :
    keysList (es ++ [(tok, alts)]) = keysList es ++ [tok] := by
  simp [keysList]

/-- The outer `convert_grammar` fold builds exactly the association list of
the visited keys when the pass is the identity on every alternative. -/
theorem outer_foldM_id (g : Grammar)
    {apply : Expansion → Symbols → Option ((Expansion × Expansions) × Symbols)}
    (happly : ∀ k alts e sy, lookup g k = some alts → e ∈ alts →
      apply e sy = some ((e, []), sy)) :
    ∀ (toks : List String) (es : Expansions) (sy : Symbols),
      toks.Nodup →
      (∀ t ∈ toks, t ∈ keysList g) →
      (∀ t ∈ toks, t ∉ keysList es) →
      (∀ t ∈ toks, altsOf g t ≠ []) →
      toks.foldlM (fun (st : Expansions × Symbols) tok =>
        match lookup g tok with
        | none => none
        | some alts =>
          alts.foldlM (fun (st2 : Expansions × Symbols) expansion =>
            (apply expansion st2.2).map
              fun (r : (Expansion × Expansions) × Symbols) =>
                (extendExp (pushEntry st2.1 tok r.1.1) r.1.2, r.2)) st)
        (es, sy) =
      some (es ++ toks.map fun t => (t, altsOf g t), sy) := by
  intro toks
  induction toks with
  | nil => intro es sy _ _ _ _; simp
  | cons tok rest ih =>
    intro es sy hnd hmem hnotin hne
    rw [List.foldlM_cons]
    have hl : lookup g tok = some (altsOf g tok) :=
      lookup_eq_altsOf (hmem tok (List.mem_cons_self tok rest))
    rw [show (match lookup g tok with
      | none => none
      | some alts =>
        alts.foldlM (fun (st2 : Expansions × Symbols) expansion =>
          (apply expansion st2.2).map
            fun (r : (Expansion × Expansions) × Symbols) =>
              (extendExp (pushEntry st2.1 tok r.1.1) r.1.2, r.2)) (es, sy)) =
      (altsOf g tok).foldlM (fun (st2 : Expansions × Symbols) expansion =>
        (apply expansion st2.2).map
          fun (r : (Expansion × Expansions) × Symbols) =>
            (extendExp (pushEntry st2.1 tok r.1.1) r.1.2, r.2)) (es, sy)
      from by rw [hl]]
    rw [inner_foldM_id (altsOf g tok) es
      fun e he => happly tok (altsOf g tok) e sy hl he]
    rw [pushEntry_fold_full (hnotin tok (List.mem_cons_self tok rest))
      (hne tok (List.mem_cons_self tok rest))]
    rw [optionSomeBind]
    rw [ih (es ++ [(tok, altsOf g tok)]) sy (List.nodup_cons.1 hnd).2
      (fun t ht => hmem t (List.mem_cons_of_mem _ ht))
      (fun t ht => by
        rw [keysList_append_entry, List.mem_append, List.mem_singleton]
        rintro (hc | rfl)
        · exact hnotin t (List.mem_cons_of_mem _ ht) hc
        · exact (List.nodup_cons.1 hnd).1 ht)
      (fun t ht => hne t (List.mem_cons_of_mem _ ht))]
    simp

/-- Looking a key up in the association list built from a key list. -/
theorem lookup_keyMap (g : Grammar) :
    ∀ (toks : List String), (∀ t ∈ toks, t ∈ keysList g) →
      ∀ k, lookup (toks.map fun t => (t, altsOf g t)) k =
        if k ∈ toks then lookup g k else none := by
  intro toks
  induction toks with
  | nil => intro _ k; simp [lookup]
  | cons t rest ih =>
    intro hsub k
    by_cases hk : t = k
    · subst hk
      rw [if_pos (List.mem_cons_self t rest)]
      unfold lookup
      simp only [List.map_cons]
      have hfind : List.find? (fun p => p.1 == t)
          ((t, altsOf g t) :: rest.map fun t2 => (t2, altsOf g t2)) =
          some (t, altsOf g t) := List.find?_cons_of_pos _ (by simp)
      rw [hfind, Option.map_some']
      exact (lookup_eq_altsOf (hsub t (List.mem_cons_self t rest))).symm
    · have : lookup ((t :: rest).map fun t2 => (t2, altsOf g t2)) k =
          lookup (rest.map fun t2 => (t2, altsOf g t2)) k := by
        unfold lookup
        simp only [List.map_cons]
        rw [List.find?_cons_of_neg _ (by simpa using hk)]
      rw [this, ih (fun t2 ht2 => hsub t2 (List.mem_cons_of_mem _ ht2)) k]
      by_cases hkr : k ∈ rest
      · rw [if_pos hkr, if_pos (List.mem_cons_of_mem _ hkr)]
      · rw [if_neg hkr, if_neg (by
          rw [List.mem_cons]
          rintro (rfl | hc)
          · exact hk rfl
          · exact hkr hc)]

/-- `convert_grammar` with an identity pass rebuilds the grammar with the
same lookups, the keys now in sorted order. -/
theorem convert_grammar_plain_id (g : Grammar)
    {apply : Expansion → Symbols → Option ((Expansion × Expansions) × Symbols)}
    (hkeys : (keysList g).Nodup)
    (hne : ∀ k ∈ keysList g, altsOf g k ≠ [])
    (happly : ∀ k alts e sy, lookup g k = some alts → e ∈ alts →
      apply e sy = some ((e, []), sy)) :
    convert_grammar g apply =
      some (((keysList g).mergeSort fun a b => decide (a ≤ b)).map
        fun t => (t, altsOf g t)) ∧
    keysList (((keysList g).mergeSort fun a b => decide (a ≤ b)).map
        fun t => (t, altsOf g t)) =
      (keysList g).mergeSort (fun a b => decide (a ≤ b)) ∧
    ∀ k, lookup (((keysList g).mergeSort fun a b => decide (a ≤ b)).map
        fun t => (t, altsOf g t)) k = lookup g k := by
  have hperm : ((keysList g).mergeSort fun a b => decide (a ≤ b)).Perm
      (keysList g) := List.mergeSort_perm _ _
  have hnodup : ((keysList g).mergeSort fun a b => decide (a ≤ b)).Nodup :=
    hperm.nodup_iff.2 hkeys
  have hmem : ∀ t ∈ (keysList g).mergeSort fun a b => decide (a ≤ b),
      t ∈ keysList g := fun t ht => hperm.mem_iff.1 ht
  refine ⟨?_, by unfold keysList; rw [List.map_map]; exact List.map_id _, ?_⟩
  · unfold convert_grammar
    dsimp only
    rw [outer_foldM_id g happly _ [] (Symbols.ofGrammar g) hnodup hmem
      (by simp [keysList]) (fun t ht => hne t (hmem t ht))]
    simp
  · intro k
    rw [lookup_keyMap g _ hmem k]
    by_cases hk : k ∈ (keysList g).mergeSort fun a b => decide (a ≤ b)
    · rw [if_pos hk]
    · rw [if_neg hk]
      exact (lookup_none_of_not_mem fun hc => hk (hperm.mem_iff.2 hc)).symm

/-- Counterexample to C6 as stated: the grammar `<a> → (no alternatives)` is
vacuously free of EBNF operators, yet `ebnf_to_bnf` drops the key entirely
(the per-alternative loop never runs, so the entry is never created), so the
result does not have the same key set. -/
theorem C6_counterexample :
    ebnf_to_bnf [("<a>", ([] : Alternatives))] = some [] ∧
    keysFinset ([] : Grammar) ≠ keysFinset [("<a>", ([] : Alternatives))] := by
  refine ⟨?_, by decide⟩
  have hpass1 : convert_grammar [("<a>", ([] : Alternatives))]
      (fun e sy => some (convert_ebnf_parentheses e sy)) = some [] := by
    unfold convert_grammar
    dsimp only
    rw [show keysList [("<a>", ([] : Alternatives))] = ["<a>"] from rfl,
      List.mergeSort_singleton]
    simp [List.foldlM_cons, List.foldlM_nil,
      show lookup [("<a>", ([] : Alternatives))] "<a>" =
        some ([] : Alternatives) from by decide]
  have hpass2 : convert_grammar ([] : Grammar) convert_ebnf_operators =
      some [] := by
    unfold convert_grammar
    dsimp only
    rw [show keysList ([] : Grammar) = [] from rfl, List.mergeSort_nil]
    simp [List.foldlM_nil]
  unfold ebnf_to_bnf
  rw [hpass1, Option.some_bind, hpass2]

/-- C6 (amended): for a grammar with distinct keys in which every symbol has
at least one alternative and no alternative contains a parenthesised group
followed by a repetition operator or a nonterminal followed by a repetition
operator, `ebnf_to_bnf` succeeds and returns a grammar with the same key set
and, for every key, the same lookup result (same ordered alternatives, hence
the same ordered expansion strings).  Without the non-emptiness condition a
key with an empty alternatives list is dropped (see the counterexample). -/
theorem C6_ebnf_identity_amended (g : Grammar)
    (hkeys : (keysList g).Nodup)
    (hne : ∀ k ∈ keysList g, altsOf g k ≠ [])
    (hplain : ∀ k ∈ keysList g, ∀ a ∈ altsOf g k,
      next_parenthesized_expression a.string = none ∧
      next_extended_nonterminal a.string = none) :
    (ebnf_to_bnf g).map keysFinset = some (keysFinset g) ∧
    ∀ k, (ebnf_to_bnf g).map (fun g2 => lookup g2 k) =
      some (lookup g k) := by
  have halts : ∀ {k : String} {alts : Alternatives}, lookup g k = some alts →
      k ∈ keysList g ∧ alts = altsOf g k := by
    intro k alts hl
    have hmem := mem_keysList_of_lookup hl
    refine ⟨hmem, ?_⟩
    have := lookup_eq_altsOf hmem
    rw [hl] at this
    exact Option.some.injEq _ _ ▸ (by simpa using this)
  obtain ⟨hc1, hk1, hl1⟩ := @convert_grammar_plain_id g
    (fun e sy => some (convert_ebnf_parentheses e sy)) hkeys hne
    (by
      intro k alts e sy hl he
      obtain ⟨hmem, rfl⟩ := halts hl
      exact congrArg some
        (convert_ebnf_parentheses_plain (hplain k hmem e he).1))
  set g1 := ((keysList g).mergeSort fun a b => decide (a ≤ b)).map
    fun t => (t, altsOf g t) with hg1
  have hperm1 : (keysList g1).Perm (keysList g) := by
    rw [hk1]
    exact List.mergeSort_perm _ _
  have hkeys1 : (keysList g1).Nodup := hperm1.nodup_iff.2 hkeys
  have haltsOf1 : ∀ k ∈ keysList g1, altsOf g1 k = altsOf g k := by
    intro k hk
    unfold altsOf
    rw [hl1 k]
  have hne1 : ∀ k ∈ keysList g1, altsOf g1 k ≠ [] := by
    intro k hk
    rw [haltsOf1 k hk]
    exact hne k (hperm1.mem_iff.1 hk)
  obtain ⟨hc2, hk2, hl2⟩ := @convert_grammar_plain_id g1
    convert_ebnf_operators hkeys1 hne1
    (by
      intro k alts e sy hl he
      have hl' : lookup g k = some alts := by rw [← hl1 k]; exact hl
      obtain ⟨hmem, rfl⟩ := halts hl'
      exact convert_ebnf_operators_plain (hplain k hmem e he).2)
  have hres : ebnf_to_bnf g =
      some (((keysList g1).mergeSort fun a b => decide (a ≤ b)).map
        fun t => (t, altsOf g1 t)) := by
    unfold ebnf_to_bnf
    rw [hc1, Option.some_bind, hc2]
  rw [hres]
  constructor
  · rw [Option.map_some']
    congr 1
    unfold keysFinset
    rw [hk2]
    rw [List.toFinset_eq_of_perm _ _ (List.mergeSort_perm _ _)]
    rw [List.toFinset_eq_of_perm _ _ hperm1]
  · intro k
    rw [Option.map_some']
    congr 1
    rw [hl2 k, hl1 k]

/-- Witness for C6 (amended): the plain one-production grammar `<a> → "x"`
is returned unchanged (same key set, same lookup at `<a>`). -/
theorem C6_witness :
    (ebnf_to_bnf [("<a>", [Expansion.mk "x" none])]).map keysFinset =
      some (keysFinset [("<a>", [Expansion.mk "x" none])]) ∧
    (ebnf_to_bnf [("<a>", [Expansion.mk "x" none])]).map
      (fun g2 => lookup g2 "<a>") =
      some (lookup [("<a>", [Expansion.mk "x" none])] "<a>") := by
  have h := C6_ebnf_identity_amended [("<a>", [Expansion.mk "x" none])]
    (by decide) (by decide) (by decide)
  exact ⟨h.1, h.2 "<a>"⟩

/-! ## Claim C1: termination of the Close strategy

The proof uses a potential function: the sum, over the unexpanded
(`Node.N`) nodes of the tree, of the minimal completion cost of their
symbols.  On a valid grammar every reachable symbol has a finite minimal
cost, every `Close` step replaces one unexpanded node of cost `c` by
children of total cost at most `c - 1`, and every symbol appearing on an
unexpanded node stays inside the reachable set.
-/

mutual
/-- Every unexpanded (`Node.N`) symbol of the tree lies in `S`. -/
def nodesIn (S : Finset String) : Node → Bool
  | Node.T _ => true
  | Node.N s => decide (s ∈ S)
  | Node.EN _ chl => nodesInCh S chl

/-- `nodesIn` over a child list. -/
def nodesInCh (S : Finset String) : List Node → Bool
  | [] => true
  | c :: t => nodesIn S c && nodesInCh S t
end

mutual
/-- Potential of a tree: the total minimal completion cost
(`symbol_cost` from the empty seen set, truncated to `ℕ`) of its
unexpanded nonterminals. -/
def phi (g : Grammar) : Node → ℕ
  | Node.T _ => 0
  | Node.N s => ((symbol_cost g s ∅).getD ⊤).toNat
  | Node.EN _ chl => phiCh g chl

/-- `phi` summed over a child list. -/
def phiCh (g : Grammar) : List Node → ℕ
  | [] => 0
  | c :: t => phi g c + phiCh g t
end

theorem nodesInCh_eq (S : Finset String) (chl : List Node) :
    nodesInCh S chl = chl.all (nodesIn S) := by
  induction chl with
  | nil => rfl
  | cons c t ih => simp [nodesInCh, ih]

theorem phiCh_eq (g : Grammar) (chl : List Node) :
    phiCh g chl = (chl.map (phi g)).sum := by
  induction chl with
  | nil => rfl
  | cons c t ih => simp [phiCh, ih]

theorem phiCh_set (g : Grammar) :
    ∀ (ch : List Node) (j : ℕ) (c' : Node) (hj : j < ch.length),
      phiCh g (ch.set j c') + phi g ch[j] =
        phiCh g ch + phi g c' := by
  intro ch
  induction ch with
  | nil => intro j c' hj; cases hj
  | cons c t ih =>
    intro j c' hj
    cases j with
    | zero => simp [phiCh]; omega
    | succ j' =>
      simp only [List.set_cons_succ, phiCh, List.getElem_cons_succ]
      have := ih j' c' (by simpa using hj)
      omega

theorem nodesInCh_set (S : Finset String) :
    ∀ (ch : List Node) (j : ℕ) (c' : Node),
      nodesInCh S ch = true → nodesIn S c' = true →
      nodesInCh S (ch.set j c') = true := by
  intro ch
  induction ch with
  | nil => intro j c' h hc'; simpa using h
  | cons c t ih =>
    intro j c' h hc'
    simp only [nodesInCh, Bool.and_eq_true] at h
    cases j with
    | zero => simp [nodesInCh, hc', h.2]
    | succ j' =>
      simp only [List.set_cons_succ, nodesInCh, Bool.and_eq_true]
      exact ⟨h.1, ih j' c' h.2 hc'⟩

theorem nodesInCh_mem {S : Finset String} {ch : List Node}
    (h : nodesInCh S ch = true) : ∀ c ∈ ch, nodesIn S c = true := by
  intro c hc
  rw [nodesInCh_eq, List.all_eq_true] at h
  exact h c hc

/-- Everything the worklist loop returns contains its accumulated result
and every frontier entry. -/
theorem reachLoop_mono (g : Grammar) (frontier : List String)
    (result : Finset String) :
    ∀ R, reachLoop g frontier result = some R →
      result ⊆ R ∧ ∀ s ∈ frontier, s ∈ R := by
  induction frontier, result using reachLoop.induct with
  | g => exact g
  | case1 res =>
    intro R h
    rw [reachLoop_nil] at h
    obtain rfl : res = R := by simpa using h
    exact ⟨le_refl _, by simp⟩
  | case2 res sym rest hmem ih =>
    intro R h
    rw [reachLoop_cons_mem hmem] at h
    obtain ⟨h1, h2⟩ := ih R h
    refine ⟨h1, ?_⟩
    intro s hs
    rcases List.mem_cons.1 hs with rfl | hs
    · exact h1 hmem
    · exact h2 s hs
  | case3 res sym rest hmem hts =>
    intro R h
    rw [reachLoop.eq_def] at h
    dsimp only at h
    rw [dif_neg hmem] at h
    split at h
    · cases h
    · rename_i ts' hn
      rw [hts] at hn
      cases hn
  | case4 res sym rest hmem ts hts ih =>
    intro R h
    rw [reachLoop_cons_new hmem hts] at h
    obtain ⟨h1, h2⟩ := ih R h
    have hres : res ⊆ R := fun x hx => h1 (Finset.mem_insert_of_mem hx)
    refine ⟨hres, ?_⟩
    intro s hs
    rcases List.mem_cons.1 hs with rfl | hs
    · exact h1 (Finset.mem_insert_self _ _)
    · exact h2 s (List.mem_append_right _ hs)

/-- Successor closure at a symbol: the scan of every alternative succeeds
and all its nonterminal tokens lie in `R`. -/
def SuccOK (g : Grammar) (s : String) (R : Finset String) : Prop :=
  ∃ ts, successor_tokens g s = some ts ∧ ∀ t ∈ ts, t ∈ R

/-- The returned reachable set is successor-closed: every member was popped
and processed at some point, its successors all entering the frontier. -/
theorem reachLoop_closed (g : Grammar) (frontier : List String)
    (result : Finset String) :
    ∀ R, reachLoop g frontier result = some R →
      (∀ s ∈ result, SuccOK g s R) → ∀ s ∈ R, SuccOK g s R := by
  induction frontier, result using reachLoop.induct with
  | g => exact g
  | case1 res =>
    intro R h hpre
    rw [reachLoop_nil] at h
    obtain rfl : res = R := by simpa using h
    exact hpre
  | case2 res sym rest hmem ih =>
    intro R h hpre
    rw [reachLoop_cons_mem hmem] at h
    exact ih R h hpre
  | case3 res sym rest hmem hts =>
    intro R h hpre
    rw [reachLoop.eq_def] at h
    dsimp only at h
    rw [dif_neg hmem] at h
    split at h
    · cases h
    · rename_i ts' hn
      rw [hts] at hn
      cases hn
  | case4 res sym rest hmem ts hts ih =>
    intro R h hpre
    rw [reachLoop_cons_new hmem hts] at h
    refine ih R h ?_
    intro s hs
    rcases Finset.mem_insert.1 hs with rfl | hs
    · refine ⟨ts, hts, ?_⟩
      intro t ht
      exact (reachLoop_mono g _ _ R h).2 t
        (List.mem_append_left _ (List.mem_reverse.2 ht))
    · exact hpre s hs

/-- Two pointwise-comparable `seqOpt` outcomes over the same list are
pointwise `≤`. -/
theorem forall2_of_map_some {α : Type} {f f' : α → Option ℕ∞} :
    ∀ {l : List α} {cs cs' : List ℕ∞},
      l.map f = cs.map some → l.map f' = cs'.map some →
      (∀ a ∈ l, ∀ v v', f a = some v → f' a = some v' → v ≤ v') →
      List.Forall₂ (· ≤ ·) cs cs' := by
  intro l
  induction l with
  | nil =>
    intro cs cs' h h' _
    obtain rfl : cs = [] := by
      cases cs with
      | nil => rfl
      | cons c t => simp at h
    obtain rfl : cs' = [] := by
      cases cs' with
      | nil => rfl
      | cons c t => simp at h'
    exact List.Forall₂.nil
  | cons a l' ih =>
    intro cs cs' h h' hpt
    cases cs with
    | nil => simp at h
    | cons c ct =>
      cases cs' with
      | nil => simp at h'
      | cons c' ct' =>
        simp only [List.map_cons, List.cons.injEq] at h h'
        refine List.Forall₂.cons
          (hpt a (List.mem_cons_self a l') c c' h.1 h'.1) ?_
        exact ih h.2 h'.2 fun x hx => hpt x (List.mem_cons_of_mem _ hx)

theorem forall2_foldl_min {cs cs' : List ℕ∞}
    (h : List.Forall₂ (· ≤ ·) cs cs') :
    ∀ {a a' : ℕ∞}, a ≤ a' → cs.foldl min a ≤ cs'.foldl min a' := by
  induction h with
  | nil => intro a a' ha; simpa using ha
  | cons hxy _ ih =>
    intro a a' ha
    exact ih (min_le_min ha hxy)

theorem forall2_sum_le {cs cs' : List ℕ∞}
    (h : List.Forall₂ (· ≤ ·) cs cs') : cs.sum ≤ cs'.sum := by
  induction h with
  | nil => exact le_refl _
  | cons hxy _ ih =>
    simp only [List.sum_cons]
    exact add_le_add hxy ih

/-- Costs are monotone in the seen set: enlarging `seen` can only increase a
defined `symbol_cost` or `expansion_cost` (more cycles are cut off at `⊤`).
-/
theorem cost_mono (g : Grammar) :
    (∀ (s : String) (seen seen' : Finset String) (v v' : ℕ∞),
      seen ⊆ seen' → symbol_cost g s seen = some v →
      symbol_cost g s seen' = some v' → v ≤ v') ∧
    (∀ (e : Expansion) (seen seen' : Finset String) (v v' : ℕ∞),
      seen ⊆ seen' → expansion_cost g e seen = some v →
      expansion_cost g e seen' = some v' → v ≤ v') := by
  have H := symbol_cost.mutual_induct g
    (fun s seen => ∀ (seen' : Finset String) (v v' : ℕ∞),
      seen ⊆ seen' → symbol_cost g s seen = some v →
      symbol_cost g s seen' = some v' → v ≤ v')
    (fun e seen => ∀ (seen' : Finset String) (v v' : ℕ∞),
      seen ⊆ seen' → expansion_cost g e seen = some v →
      expansion_cost g e seen' = some v' → v ≤ v')
    ?_ ?_ ?_ ?_ ?_ ?_
  · exact ⟨fun s seen seen' v v' => H.1 s seen seen' v v',
      fun e seen seen' v v' => H.2 e seen seen' v v'⟩
  · intro symbol seen hlook seen' v v' _ hv _
    rw [symbol_cost_eq, hlook] at hv
    cases hv
  · intro symbol seen alts hlook IH seen' v v' hsub hv hv'
    rw [symbol_cost_eq, hlook] at hv hv'
    dsimp only at hv hv'
    rw [Option.map_eq_some'] at hv hv'
    obtain ⟨cs, hseq, rfl⟩ := hv
    obtain ⟨cs', hseq', rfl⟩ := hv'
    refine forall2_foldl_min ?_ (le_refl ⊤)
    refine forall2_of_map_some (seqOpt_eq_some hseq) (seqOpt_eq_some hseq')
      ?_
    intro a ha w w' hw hw'
    exact IH ⟨a, ha⟩ (insert symbol seen') w w'
      (Finset.insert_subset_insert _ hsub) hw hw'
  · intro e seen hn seen' v v' _ hv _
    rw [expansion_cost_eq, hn] at hv
    cases hv
  · intro e seen ns hn hemp seen' v v' _ hv hv'
    rw [expansion_cost_eq, hn] at hv hv'
    dsimp only at hv hv'
    rw [if_pos hemp] at hv hv'
    obtain rfl : (1 : ℕ∞) = v := by simpa using hv
    obtain rfl : (1 : ℕ∞) = v' := by simpa using hv'
    exact le_refl _
  · intro e seen ns hn hemp hany seen' v v' hsub hv hv'
    rw [expansion_cost_eq, hn] at hv hv'
    dsimp only at hv hv'
    rw [if_neg hemp, if_pos hany] at hv
    obtain rfl : (⊤ : ℕ∞) = v := by simpa using hv
    have hany' : (ns.any fun tk => decide (tk ∈ seen')) = true := by
      rw [List.any_eq_true] at hany ⊢
      obtain ⟨tk, htk, hmem⟩ := hany
      exact ⟨tk, htk, by simpa using hsub (by simpa using hmem)⟩
    rw [if_neg hemp, if_pos hany'] at hv'
    obtain rfl : (⊤ : ℕ∞) = v' := by simpa using hv'
    exact le_refl _
  · intro e seen ns hn hemp hany IH seen' v v' hsub hv hv'
    rw [expansion_cost_eq, hn] at hv hv'
    dsimp only at hv hv'
    rw [if_neg hemp, if_neg hany] at hv
    rw [Option.map_eq_some'] at hv
    obtain ⟨cs, hseq, rfl⟩ := hv
    rw [if_neg hemp] at hv'
    by_cases hany' : (ns.any fun tk => decide (tk ∈ seen')) = true
    · rw [if_pos hany'] at hv'
      obtain rfl : (⊤ : ℕ∞) = v' := by simpa using hv'
      exact le_top
    · rw [if_neg hany'] at hv'
      rw [Option.map_eq_some'] at hv'
      obtain ⟨cs', hseq', rfl⟩ := hv'
      refine add_le_add (le_refl 1) (forall2_sum_le ?_)
      refine forall2_of_map_some (seqOpt_eq_some hseq)
        (seqOpt_eq_some hseq') ?_
      intro tk htk w w' hw hw'
      exact IH ⟨tk, htk⟩ seen' w w' hsub hw hw'

theorem nodesInCh_tokens (R : Finset String) (tl : List Token) :
    (nodesInCh R (tl.map fun t => match t with
      | Token.Nonterminal s => Node.N s
      | Token.Terminal s => Node.T s) = true) ↔
    ∀ s ∈ tl.filterMap (fun t => match t with
      | Token.Nonterminal s => some s
      | Token.Terminal _ => none), s ∈ R := by
  induction tl with
  | nil => simp [nodesInCh]
  | cons t rest ih =>
    cases t with
    | Terminal s => simpa [nodesInCh, nodesIn] using ih
    | Nonterminal s => simp [nodesInCh, nodesIn, ih]

theorem phiCh_tokens (g : Grammar) (tl : List Token) :
    phiCh g (tl.map fun t => match t with
      | Token.Nonterminal s => Node.N s
      | Token.Terminal s => Node.T s) =
    ((tl.filterMap fun t => match t with
      | Token.Nonterminal s => some s
      | Token.Terminal _ => none).map
        fun s => ((symbol_cost g s ∅).getD ⊤).toNat).sum := by
  induction tl with
  | nil => simp [phiCh]
  | cons t rest ih =>
    cases t with
    | Terminal s => simpa [phiCh, phi] using ih
    | Nonterminal s => simp [phiCh, phi, ih]

theorem sum_ne_top {cs : List ℕ∞} (h : ∀ c ∈ cs, c ≠ ⊤) : cs.sum ≠ ⊤ := by
  induction cs with
  | nil => simp
  | cons c t ih =>
    rw [List.sum_cons]
    rw [WithTop.add_ne_top]
    exact ⟨h c (List.mem_cons_self c t),
      ih fun x hx => h x (List.mem_cons_of_mem _ hx)⟩

theorem sum_toNat_eq {cs : List ℕ∞} (h : ∀ c ∈ cs, c ≠ ⊤) :
    (cs.map ENat.toNat).sum = (cs.sum).toNat := by
  induction cs with
  | nil => simp
  | cons c t ih =>
    rw [List.map_cons, List.sum_cons, List.sum_cons]
    rw [ENat.toNat_add (h c (List.mem_cons_self c t))
      (sum_ne_top fun x hx => h x (List.mem_cons_of_mem _ hx))]
    rw [ih fun x hx => h x (List.mem_cons_of_mem _ hx)]

/-- The minimal completion cost of each token is bounded by its cost in any
context in which it is still defined. -/
theorem sum_phi_le (g : Grammar) (S : Finset String) :
    ∀ (ns : List String) (csum : List ℕ∞),
      (ns.map fun tk => symbol_cost g tk S) = csum.map some →
      (∀ c ∈ csum, c ≠ ⊤) →
      (∀ tk ∈ ns, ∃ w, symbol_cost g tk ∅ = some w) →
      ((ns.map fun tk => ((symbol_cost g tk ∅).getD ⊤).toNat)).sum ≤
        (csum.map ENat.toNat).sum := by
  intro ns
  induction ns with
  | nil => intro csum h _ _; simp
  | cons tk t ih =>
    intro csum h htop hdef
    cases csum with
    | nil => simp at h
    | cons c ct =>
      simp only [List.map_cons, List.cons.injEq] at h
      obtain ⟨w, hw⟩ := hdef tk (List.mem_cons_self tk t)
      have hwle : w ≤ c :=
        (cost_mono g).1 tk ∅ S w c (Finset.empty_subset S) hw h.1
      have hc : c ≠ ⊤ := htop c (List.mem_cons_self c ct)
      simp only [List.map_cons, List.sum_cons]
      have h1 : ((symbol_cost g tk ∅).getD ⊤).toNat ≤ c.toNat := by
        rw [hw, Option.getD_some]
        exact ENat.toNat_le_toNat hwle hc
      have h2 := ih ct h.2 (fun x hx => htop x (List.mem_cons_of_mem _ hx))
        (fun x hx => hdef x (List.mem_cons_of_mem _ hx))
      omega

/-- One `Close` expansion of an unexpanded node: the children's unexpanded
symbols stay in the closed set `R` and the potential strictly decreases
(chosen minimal cost `c` is finite and exceeds the children's total minimal
completion cost by at least the one derivation step). -/
theorem close_N_step {g : Grammar} {R : Finset String}
    (hRclosed : ∀ s ∈ R, SuccOK g s R)
    (hcost : ∀ s ∈ R, ∃ c, symbol_cost g s ∅ = some c ∧ c ≠ ⊤)
    {s e : String} {ch : List Node} (hs : s ∈ R)
    (hch : close_chooses g s e) (hcf : children_from e = some ch) :
    nodesInCh R ch = true ∧ phiCh g ch < phi g (Node.N s) := by
  obtain ⟨rand, hcw⟩ := hch
  unfold CloseStrategy.choose at hcw
  dsimp only at hcw
  rw [Option.bind_eq_some] at hcw
  obtain ⟨alts, hlook, hcw⟩ := hcw
  rw [Option.bind_eq_some] at hcw
  obtain ⟨cs, hcosts, hcw⟩ := hcw
  rw [Option.bind_eq_some] at hcw
  obtain ⟨i, hmin, hcw⟩ := hcw
  rw [Option.map_eq_some'] at hcw
  obtain ⟨a, hai, rfl⟩ := hcw
  obtain ⟨cS, hcS, hcSne⟩ := hcost s hs
  have hsc : symbol_cost g s ∅ = some (cs.foldl min ⊤) := by
    rw [symbol_cost_eq, hlook]
    dsimp only
    rw [show seqOpt (alts.map fun a => expansion_cost g a (insert s ∅)) =
      some cs from hcosts]
    rfl
  have hcSeq : cS = cs.foldl min ⊤ := by
    have := hcS.symm.trans hsc
    simpa using this
  have hics := min_idx_eq_some hmin
  have hilt : i < cs.length := by
    by_contra hge
    push_neg at hge
    rw [List.getElem?_eq_none hge] at hics
    cases hics
  have hmapcs := seqOpt_eq_some hcosts
  have hea : expansion_cost g a {s} = some cS := by
    have h1 : (alts.map fun expansion =>
        expansion_cost g expansion {s})[i]? = (cs.map some)[i]? := by
      rw [hmapcs]
    rw [List.getElem?_map, List.getElem?_map, hai, hics] at h1
    simpa [hcSeq] using h1
  obtain ⟨ts, hsucc, htsR⟩ := hRclosed s hs
  unfold successor_tokens at hsucc
  rw [hlook] at hsucc
  rw [Option.map_eq_some'] at hsucc
  obtain ⟨tss, hseqt, rfl⟩ := hsucc
  have hmem_a : a ∈ alts := List.getElem?_mem hai
  obtain ⟨ns, hn, hnsR⟩ : ∃ ns, nonterminal_tokens a.string = some ns ∧
      ∀ t ∈ ns, t ∈ R := by
    have h2 := seqOpt_eq_some hseqt
    have hmem : nonterminal_tokens a.string ∈ tss.map some := by
      rw [← h2]
      exact List.mem_map_of_mem _ hmem_a
    rw [List.mem_map] at hmem
    obtain ⟨ns, hnsmem, hnseq⟩ := hmem
    refine ⟨ns, hnseq.symm, ?_⟩
    intro t ht
    exact htsR t (List.mem_flatten.2 ⟨ns, hnsmem, ht⟩)
  obtain ⟨tl, htl, hnstl⟩ : ∃ tl, tokens a.string = some tl ∧
      ns = tl.filterMap fun t => match t with
        | Token.Nonterminal s => some s
        | Token.Terminal _ => none := by
    unfold nonterminal_tokens at hn
    rw [Option.map_eq_some'] at hn
    obtain ⟨tl, htl, hns⟩ := hn
    exact ⟨tl, htl, hns.symm⟩
  have hn' : nonterminal_tokens a.string = some ns := by
    unfold nonterminal_tokens
    rw [htl, Option.map_some', hnstl]
  unfold children_from at hcf
  rw [htl, Option.map_some'] at hcf
  obtain rfl : ch = if tl.isEmpty = true then [Node.T ""]
      else tl.map fun t => match t with
        | Token.Nonterminal s => Node.N s
        | Token.Terminal s => Node.T s := by
    exact (Option.some_inj.1 hcf).symm
  have hphiN : phi g (Node.N s) = cS.toNat := by simp [phi, hcS]
  rw [expansion_cost_eq, hn'] at hea
  dsimp only at hea
  by_cases hemp : ns.isEmpty
  · rw [if_pos hemp] at hea
    have hc1 : (1 : ℕ∞) = cS := by simpa using hea
    have hnsnil : ns = [] := List.isEmpty_iff.1 hemp
    constructor
    · by_cases htle : tl.isEmpty
      · rw [if_pos htle]
        simp [nodesInCh, nodesIn]
      · rw [if_neg htle]
        rw [nodesInCh_tokens]
        rw [← hnstl, hnsnil]
        simp
    · have hphi0 : phiCh g (if tl.isEmpty = true then [Node.T ""]
          else tl.map fun t => match t with
            | Token.Nonterminal s => Node.N s
            | Token.Terminal s => Node.T s) = 0 := by
        by_cases htle : tl.isEmpty
        · rw [if_pos htle]
          simp [phiCh, phi]
        · rw [if_neg htle]
          rw [phiCh_tokens, ← hnstl, hnsnil]
          simp
      rw [hphi0, hphiN, ← hc1]
      simp
  · rw [if_neg hemp] at hea
    by_cases hany : (ns.any fun tk => decide (tk ∈ ({s} : Finset String))) =
        true
    · rw [if_pos hany] at hea
      have : (⊤ : ℕ∞) = cS := by simpa using hea
      exact absurd this.symm hcSne
    · rw [if_neg hany] at hea
      rw [Option.map_eq_some'] at hea
      obtain ⟨csum, hseqs, hsum⟩ := hea
      have hmaps := seqOpt_eq_some hseqs
      have hsumne : csum.sum ≠ ⊤ := by
        intro hc
        apply hcSne
        rw [← hsum, hc]
        simp
      have htop : ∀ c ∈ csum, c ≠ ⊤ := by
        intro c hc hceq
        apply hsumne
        subst hceq
        exact top_le_iff.1 (List.single_le_sum (fun x _ => zero_le x) _ hc)
      have htlne : ¬tl.isEmpty = true := by
        intro htle
        apply hemp
        rw [List.isEmpty_iff] at htle ⊢
        rw [hnstl, htle]
        rfl
      rw [if_neg htlne]
      constructor
      · rw [nodesInCh_tokens, ← hnstl]
        exact fun t ht => hnsR t ht
      · rw [phiCh_tokens, ← hnstl, hphiN]
        have hle := sum_phi_le g {s} ns csum hmaps htop
          (fun tk htk => ((hcost tk (hnsR tk htk)).imp fun w hw => hw.1))
        rw [sum_toNat_eq htop] at hle
        have h3 : cS.toNat = 1 + (csum.sum).toNat := by
          rw [← hsum]
          rw [ENat.toNat_add (by simp) hsumne]
          simp
        omega

/-- A `Close` step never moves an unexpanded symbol out of the closed set
`R`. -/
theorem close_step_preserves {g : Grammar} {R : Finset String}
    (hRclosed : ∀ s ∈ R, SuccOK g s R)
    (hcost : ∀ s ∈ R, ∃ c, symbol_cost g s ∅ = some c ∧ c ≠ ⊤) :
    ∀ {t t' : Node}, ExpandOnce (close_chooses g) t t' →
      nodesIn R t = true → nodesIn R t' = true := by
  intro t t' hstep
  induction hstep with
  | terminal s => exact fun h => h
  | unexpanded sym e ch hch hcf =>
    intro hin
    have hsym : sym ∈ R := by simpa [nodesIn] using hin
    have h1 := (close_N_step hRclosed hcost hsym hch hcf).1
    simpa [nodesIn] using h1
  | noop sym ch hall => exact fun h => h
  | child sym ch j c' hj hanyj hstep ih =>
    intro hin
    have hinch : nodesInCh R ch = true := by simpa [nodesIn] using hin
    have hinj : nodesIn R ch[j] = true :=
      nodesInCh_mem hinch _ (List.getElem_mem _)
    have h1 := nodesInCh_set R ch j c' hinch (ih hinj)
    simpa [nodesIn] using h1

/-- A `Close` step from a tree still containing an unexpanded node strictly
decreases the potential. -/
theorem close_step_decreases {g : Grammar} {R : Finset String}
    (hRclosed : ∀ s ∈ R, SuccOK g s R)
    (hcost : ∀ s ∈ R, ∃ c, symbol_cost g s ∅ = some c ∧ c ≠ ⊤) :
    ∀ {t t' : Node}, ExpandOnce (close_chooses g) t t' →
      nodesIn R t = true → any_possible_expansions t = true →
      phi g t' < phi g t := by
  intro t t' hstep
  induction hstep with
  | terminal s =>
    intro _ hany
    simp [any_possible_expansions] at hany
  | unexpanded sym e ch hch hcf =>
    intro hin _
    have hsym : sym ∈ R := by simpa [nodesIn] using hin
    have h2 := (close_N_step hRclosed hcost hsym hch hcf).2
    simpa [phi] using h2
  | noop sym ch hall =>
    intro _ hany
    exfalso
    rw [show any_possible_expansions (Node.EN sym ch) = anyChildren ch
      from rfl, anyChildren_eq, List.any_eq_true] at hany
    obtain ⟨c, hc, hcany⟩ := hany
    rw [hall c hc] at hcany
    cases hcany
  | child sym ch j c' hj hanyj hstep ih =>
    intro hin hany
    have hinch : nodesInCh R ch = true := by simpa [nodesIn] using hin
    have hinj : nodesIn R ch[j] = true :=
      nodesInCh_mem hinch _ (List.getElem_mem _)
    have hlt := ih hinj hanyj
    have hset := phiCh_set g ch j c' hj
    show phiCh g (ch.set j c') < phiCh g ch
    omega

/-- On a cost-finite successor-closed set, a tree with an unexpanded node
always admits a `Close` step: the chooser and the child scan cannot fail. -/
theorem close_progress {g : Grammar} {R : Finset String}
    (hRclosed : ∀ s ∈ R, SuccOK g s R)
    (hcost : ∀ s ∈ R, ∃ c, symbol_cost g s ∅ = some c ∧ c ≠ ⊤) :
    ∀ t : Node, nodesIn R t = true → any_possible_expansions t = true →
      ∃ t', ExpandOnce (close_chooses g) t t' := by
  have main : ∀ (n : ℕ) (t : Node), sizeOf t ≤ n → nodesIn R t = true →
      any_possible_expansions t = true →
      ∃ t', ExpandOnce (close_chooses g) t t' := by
    intro n
    induction n using Nat.strong_induction_on with
    | _ n ih =>
      intro t hsz hin hany
      cases t with
      | T s => simp [any_possible_expansions] at hany
      | N s =>
        have hsR : s ∈ R := by simpa [nodesIn] using hin
        obtain ⟨cS, hcS, hcSne⟩ := hcost s hsR
        obtain ⟨alts, hlook⟩ : ∃ alts, lookup g s = some alts := by
          cases hlook : lookup g s with
          | none => rw [symbol_cost_eq, hlook] at hcS; cases hcS
          | some alts => exact ⟨alts, rfl⟩
        have hsc : symbol_cost g s ∅ =
            (costs g s alts).map fun l => l.foldl min ⊤ := by
          rw [symbol_cost_eq, hlook]
          rfl
        obtain ⟨cs, hcosts⟩ : ∃ cs, costs g s alts = some cs := by
          cases hc : costs g s alts with
          | none => rw [hsc, hc] at hcS; cases hcS
          | some cs => exact ⟨cs, rfl⟩
        have hfold : cS = cs.foldl min ⊤ := by
          rw [hsc, hcosts] at hcS
          simpa using hcS.symm
        have hcsne : cs ≠ [] := by
          intro hnil
          apply hcSne
          rw [hfold, hnil]
          rfl
        obtain ⟨i, hmin⟩ := min_idx_isSome hcsne 0
        have hics := min_idx_eq_some hmin
        have hilt : i < cs.length := by
          by_contra hge
          push_neg at hge
          rw [List.getElem?_eq_none hge] at hics
          cases hics
        have hlen := costs_length hcosts
        have hialt : i < alts.length := by omega
        have hai : alts[i]? = some alts[i] := List.getElem?_eq_getElem hialt
        have hea : expansion_cost g alts[i] {s} =
            some (cs.foldl min ⊤) := by
          have h1 : (alts.map fun expansion =>
              expansion_cost g expansion {s})[i]? = (cs.map some)[i]? := by
            rw [seqOpt_eq_some hcosts]
          rw [List.getElem?_map, List.getElem?_map, hai, hics] at h1
          simpa using h1
        obtain ⟨ns, hn⟩ : ∃ ns,
            nonterminal_tokens alts[i].string = some ns := by
          cases hn : nonterminal_tokens alts[i].string with
          | none => rw [expansion_cost_eq, hn] at hea; cases hea
          | some ns => exact ⟨ns, rfl⟩
        obtain ⟨tl, htl⟩ : ∃ tl, tokens alts[i].string = some tl := by
          unfold nonterminal_tokens at hn
          cases htl : tokens alts[i].string with
          | none => rw [htl] at hn; cases hn
          | some tl => exact ⟨tl, rfl⟩
        refine ⟨Node.EN s (if tl.isEmpty = true then [Node.T ""]
            else tl.map fun t => match t with
              | Token.Nonterminal s => Node.N s
              | Token.Terminal s => Node.T s), ?_⟩
        refine ExpandOnce.unexpanded s alts[i].string _ ⟨0, ?_⟩ ?_
        · unfold CloseStrategy.choose
          simp only [hlook, Option.some_bind, hcosts, hmin, hai,
            Option.map_some']
        · unfold children_from
          rw [htl, Option.map_some']
      | EN sym ch =>
        have hinch : nodesInCh R ch = true := by simpa [nodesIn] using hin
        have hany' : anyChildren ch = true := by
          simpa [any_possible_expansions] using hany
        rw [anyChildren_eq, List.any_eq_true] at hany'
        obtain ⟨c, hc, hcany⟩ := hany'
        obtain ⟨j, hj, rfl⟩ := List.mem_iff_getElem.1 hc
        have hch : sizeOf ch < sizeOf (Node.EN sym ch) := by
          simp
        have hcj : sizeOf ch[j] < sizeOf ch :=
          List.sizeOf_lt_of_mem (List.getElem_mem _)
        obtain ⟨c', hstep⟩ := ih (sizeOf ch[j]) (by omega) ch[j] le_rfl
          (nodesInCh_mem hinch _ (List.getElem_mem _)) hcany
        exact ⟨Node.EN sym (ch.set j c'),
          ExpandOnce.child sym ch j c' hj hcany hstep⟩
  exact fun t => main (sizeOf t) t le_rfl

/-- A tree with no possible expansion contains zero unexpanded nodes. -/
theorem any_false_num_zero :
    ∀ t : Node, any_possible_expansions t = false →
      num_possible_expansions t = 0 := by
  have main : ∀ (n : ℕ) (t : Node), sizeOf t ≤ n →
      any_possible_expansions t = false → num_possible_expansions t = 0 := by
    intro n
    induction n using Nat.strong_induction_on with
    | _ n ih =>
      intro t hsz hany
      cases t with
      | T s => rfl
      | N s => simp [any_possible_expansions] at hany
      | EN sym ch =>
        have hall : ∀ c ∈ ch, any_possible_expansions c = false := by
          intro c hc
          by_contra hcc
          rw [Bool.not_eq_false] at hcc
          have hor : anyChildren ch = true := by
            rw [anyChildren_eq, List.any_eq_true]
            exact ⟨c, hc, hcc⟩
          rw [show any_possible_expansions (Node.EN sym ch) = anyChildren ch
            from rfl, hor] at hany
          cases hany
        show num_possible_expansions (Node.EN sym ch) = 0
        rw [show num_possible_expansions (Node.EN sym ch) = numChildren ch
          from rfl, numChildren_eq]
        apply List.sum_eq_zero
        intro x hx
        rw [List.mem_map] at hx
        obtain ⟨c, hc, rfl⟩ := hx
        have hch : sizeOf ch < sizeOf (Node.EN sym ch) := by
          simp
        have hcs : sizeOf c < sizeOf ch := List.sizeOf_lt_of_mem hc
        exact ih (sizeOf c) (by omega) c le_rfl (hall c hc)
  exact fun t => main (sizeOf t) t le_rfl

/-- C1: on a grammar accepted by `is_valid_grammar` with a defined start
symbol, running `expand_tree_with_strategy` with `CloseStrategy` from the
unexpanded root terminates: the strategy can always take a step while an
unexpanded node remains (no panic, first conjunct), and every run of the
loop reaches, after finitely many steps, a tree with no possible expansion —
zero unexpanded nodes — at which point the loop exits (second conjunct). -/
theorem C1_close_strategy_terminates (g : Grammar) (start : String)
    (hdef : start ∈ keysFinset g)
    (hvalid : is_valid_grammar g (some start) = some true) :
    (∀ t, Relation.ReflTransGen (CloseStep g) (Node.N start) t →
      any_possible_expansions t = true → ∃ t', CloseStep g t t') ∧
    (∀ f : ℕ → Node, f 0 = Node.N start →
      (∀ n, any_possible_expansions (f n) = true →
        CloseStep g (f n) (f (n + 1))) →
      ∃ n, any_possible_expansions (f n) = false ∧
        num_possible_expansions (f n) = 0) := by
  obtain ⟨R, hreach⟩ : ∃ R, find_reachable_nonterminals g start = some R := by
    cases hr : find_reachable_nonterminals g start with
    | none =>
      exfalso
      unfold is_valid_grammar at hvalid
      dsimp only [Option.getD_some] at hvalid
      rw [hr] at hvalid
      cases hvalid
    | some R => exact ⟨R, rfl⟩
  obtain ⟨cycle, hcyc⟩ : ∃ c, find_unavoidable_cycle g = some c := by
    cases hc : find_unavoidable_cycle g with
    | none =>
      exfalso
      unfold is_valid_grammar at hvalid
      dsimp only [Option.getD_some] at hvalid
      rw [hreach] at hvalid
      dsimp only at hvalid
      rw [hc] at hvalid
      cases hvalid
    | some c => exact ⟨c, rfl⟩
  have hform : is_valid_grammar g (some start) =
      some (decide (R \ keysFinset g = ∅) && decide (cycle = [])) := by
    unfold is_valid_grammar
    dsimp only [Option.getD_some]
    rw [hreach]
    dsimp only
    rw [hcyc]
  rw [hform] at hvalid
  have hb : (decide (R \ keysFinset g = ∅) && decide (cycle = [])) =
      true := by simpa using hvalid
  rw [Bool.and_eq_true, decide_eq_true_iff, decide_eq_true_iff] at hb
  obtain ⟨hsub, rfl⟩ := hb
  have hRkeys : R ⊆ keysFinset g := Finset.sdiff_eq_empty_iff_subset.1 hsub
  unfold find_unavoidable_cycle at hcyc
  rw [Option.map_eq_some'] at hcyc
  obtain ⟨costs0, hseqc, hfilt⟩ := hcyc
  have hmapc := seqOpt_eq_some hseqc
  have hnotop := (zip_filter_top_empty hmapc).1 hfilt
  have hcost : ∀ s ∈ R, ∃ c, symbol_cost g s ∅ = some c ∧ c ≠ ⊤ := by
    intro s hsR
    have hk : s ∈ keysList g := by
      have := hRkeys hsR
      unfold keysFinset at this
      exact List.mem_toFinset.1 this
    have hmem : symbol_cost g s ∅ ∈ costs0.map some := by
      rw [← hmapc]
      exact List.mem_map_of_mem _ hk
    rw [List.mem_map] at hmem
    obtain ⟨c, hcmem, hceq⟩ := hmem
    refine ⟨c, hceq.symm, ?_⟩
    intro hctop
    subst hctop
    exact hnotop s hk hceq.symm
  have hRclosed : ∀ s ∈ R, SuccOK g s R := by
    refine reachLoop_closed g [start] ∅ R hreach ?_
    intro s hs
    simp at hs
  have hstartR : start ∈ R :=
    (reachLoop_mono g [start] ∅ R hreach).2 start (List.mem_cons_self _ _)
  constructor
  · have hreachInv : ∀ t, Relation.ReflTransGen (CloseStep g)
        (Node.N start) t → nodesIn R t = true := by
      intro t hrt
      induction hrt with
      | refl => simpa [nodesIn] using hstartR
      | tail hab hbc ih => exact close_step_preserves hRclosed hcost hbc ih
    intro t hrt hany
    exact close_progress hRclosed hcost t (hreachInv t hrt) hany
  · intro f h0 hstep
    by_contra hnone
    push_neg at hnone
    have hallany : ∀ n, any_possible_expansions (f n) = true := by
      intro n
      cases hb : any_possible_expansions (f n) with
      | false => exact absurd (any_false_num_zero _ hb) (hnone n hb)
      | true => rfl
    have hin : ∀ n, nodesIn R (f n) = true := by
      intro n
      induction n with
      | zero => rw [h0]; simpa [nodesIn] using hstartR
      | succ n ih =>
        exact close_step_preserves hRclosed hcost (hstep n (hallany n)) ih
    have hdec : ∀ n, phi g (f (n + 1)) < phi g (f n) := fun n =>
      close_step_decreases hRclosed hcost (hstep n (hallany n)) (hin n)
        (hallany n)
    have hbound : ∀ n, phi g (f n) + n ≤ phi g (f 0) := by
      intro n
      induction n with
      | zero => omega
      | succ n ih =>
        have := hdec n
        omega
    have := hbound (phi g (f 0) + 1)
    omega

/-- Witness for C1: the one-production grammar `<start> → "x"`, which
`is_valid_grammar` accepts, with start symbol `<start>`. -/
theorem C1_witness :
    (∀ t, Relation.ReflTransGen
        (CloseStep [("<start>", [Expansion.mk "x" none])])
        (Node.N "<start>") t →
      any_possible_expansions t = true →
      ∃ t', CloseStep [("<start>", [Expansion.mk "x" none])] t t') ∧
    (∀ f : ℕ → Node, f 0 = Node.N "<start>" →
      (∀ n, any_possible_expansions (f n) = true →
        CloseStep [("<start>", [Expansion.mk "x" none])] (f n) (f (n + 1))) →
      ∃ n, any_possible_expansions (f n) = false ∧
        num_possible_expansions (f n) = 0) := by
  refine C1_close_strategy_terminates [("<start>", [Expansion.mk "x" none])]
    "<start>" (by decide) ?_
  have hsucc : successor_tokens [("<start>", [Expansion.mk "x" none])]
      "<start>" = some [] := by decide
  have hreach : find_reachable_nonterminals
      [("<start>", [Expansion.mk "x" none])] "<start>" =
      some {"<start>"} := by
    unfold find_reachable_nonterminals
    rw [reachLoop_cons_new (by decide) hsucc]
    rw [show (([] : List String).reverse ++ [] : List String) = [] from rfl]
    rw [reachLoop_nil]
    rfl
  have hexp : expansion_cost [("<start>", [Expansion.mk "x" none])]
      (Expansion.mk "x" none) {"<start>"} = some 1 := by
    rw [expansion_cost_eq]
    rw [show nonterminal_tokens "x" = some [] from by decide]
    rfl
  have hscost : symbol_cost [("<start>", [Expansion.mk "x" none])]
      "<start>" ∅ = some 1 := by
    rw [symbol_cost_eq]
    rw [show lookup [("<start>", [Expansion.mk "x" none])] "<start>" =
      some [Expansion.mk "x" none] from by decide]
    dsimp only
    rw [show (insert "<start>" ∅ : Finset String) = {"<start>"} from rfl]
    rw [show seqOpt ([Expansion.mk "x" none].map fun a =>
      expansion_cost [("<start>", [Expansion.mk "x" none])] a
        {"<start>"}) = some [1] from by
      simp [seqOpt, hexp]]
    rfl
  have hcyc : find_unavoidable_cycle
      [("<start>", [Expansion.mk "x" none])] = some [] := by
    unfold find_unavoidable_cycle
    rw [show keysList [("<start>", [Expansion.mk "x" none])] = ["<start>"]
      from rfl]
    rw [show seqOpt (["<start>"].map fun s =>
      symbol_cost [("<start>", [Expansion.mk "x" none])] s ∅) =
      some [1] from by simp [seqOpt, hscost]]
    rw [Option.map_some']
    decide
  unfold is_valid_grammar
  dsimp only [Option.getD_some]
  rw [hreach]
  dsimp only
  rw [hcyc]
  decide

end GF
